import Mathlib

/-!
# Verification of the openskills-mcp skill resolution and execution core

This file gives a shallow embedding, in Lean 4, of the core logic of the
`openskills-mcp` repository (`src/openskills-mcp.js`, `src/openskills.js`)
and proves the specified properties about it.

Text is modelled as `List Char` (abbreviated `Str`); the JavaScript string
functions used by the source (`match` with the two concrete regular
expressions, `trim`, `includes`, `startsWith`, concatenation) are embedded
as executable functions on `List Char`.  `'\n'` is treated as the sole line
terminator and the whitespace class is the ASCII part of JavaScript's `\s`;
the source only ever relies on these.
-/

set_option autoImplicit false

namespace OpenSkills

/-- Text, modelled as a list of characters. -/
abbrev Str := List Char

/-- Convert a Lean string literal to the `Str` model. -/
def strL (x : String) : Str := x.toList

/-- The ASCII part of JavaScript's `\s` whitespace class
(space, tab, newline, carriage return, vertical tab, form feed). -/
def isWs (c : Char) : Bool :=
  c == ' ' || c == '\t' || c == '\n' || c == '\r' || c == '\x0b' || c == '\x0c'

/-- JavaScript `String.prototype.trim`: drop leading and trailing whitespace. -/
def trimChars (s : Str) : Str :=
  ((s.dropWhile isWs).reverse.dropWhile isWs).reverse

/-- Length of the maximal whitespace prefix (what the greedy `\s*` can consume). -/
def wsLen (t : Str) : Nat := (t.takeWhile isWs).length

/-- First index at which `pat` occurs as a contiguous substring of the text
(leftmost match of a literal pattern), `none` if it does not occur. -/
def findSub (pat : Str) : Str → Option Nat
  | [] => if pat.isPrefixOf ([] : Str) then some 0 else none
  | c :: rest =>
      if pat.isPrefixOf (c :: rest) then some 0
      else (findSub pat rest).map (· + 1)

/-- JavaScript `String.prototype.includes` for our text model. -/
def strContains (hay pat : Str) : Bool := (findSub pat hay).isSome

/-- Drop the current line and its terminating `'\n'`
(everything up to and including the first newline). -/
def dropLine (y : Str) : Str := ((y.dropWhile (· != '\n')).drop 1)

theorem dropLine_length_lt : ∀ y : Str, y ≠ [] → (dropLine y).length < y.length := by
  intro y
  induction y with
  | nil => intro h; exact absurd rfl h
  | cons c t ih =>
      intro _
      by_cases hc : (c != '\n') = true
      · simp only [dropLine, List.dropWhile_cons, hc, if_true]
        by_cases ht : t = []
        · subst ht; simp
        · have := ih ht
          simp only [dropLine] at this
          calc ((t.dropWhile (· != '\n')).drop 1).length < t.length := this
            _ < (c :: t).length := by simp
      · simp only [dropLine, List.dropWhile_cons, hc, if_false]
        simp

/-- The lines of a text, split at `'\n'` (fuelled for structural recursion;
the fuel is irrelevant once it exceeds the length, see `linesOfFuel_congr`). -/
def linesOfFuel : Nat → Str → List Str
  | 0, _ => []
  | fuel + 1, y =>
      if y = [] then []
      else (y.takeWhile (· != '\n')) :: linesOfFuel fuel (dropLine y)

/-- The lines of a text, split at `'\n'`. -/
def linesOf (y : Str) : List Str := linesOfFuel (y.length + 1) y

theorem linesOfFuel_congr : ∀ fuel₁ fuel₂ y, y.length < fuel₁ → y.length < fuel₂ →
    linesOfFuel fuel₁ y = linesOfFuel fuel₂ y := by
  intro fuel₁
  induction fuel₁ with
  | zero => intro fuel₂ y h1; omega
  | succ f1 ih =>
      intro fuel₂ y h1 h2
      cases fuel₂ with
      | zero => omega
      | succ f2 =>
          by_cases hy : y = []
          · simp [linesOfFuel, hy]
          · simp only [linesOfFuel, hy, if_false]
            have hlt := dropLine_length_lt y hy
            rw [ih f2 (dropLine y) (by omega) (by omega)]

theorem linesOf_nil : linesOf [] = [] := rfl

theorem linesOf_cons (y : Str) (h : y ≠ []) :
    linesOf y = (y.takeWhile (· != '\n')) :: linesOf (dropLine y) := by
  unfold linesOf
  have hlt := dropLine_length_lt y h
  conv_lhs => rw [linesOfFuel]
  simp only [h, if_false]
  rw [linesOfFuel_congr y.length ((dropLine y).length + 1) (dropLine y) (by omega) (by omega)]

/-! ## `extractYamlField` (src/openskills-mcp.js lines 41–50, identical in
src/openskills.js lines 26–35)

The source matches the document against the frontmatter regex
`"^---\s*\n([\s\S]*?)\n---"` (no `m` flag, so it is anchored at the very
start of the string), takes the captured group as the YAML header body, then
matches the body against `"^field:\s*(.+)$"` with the `m` flag and returns
the trimmed capture, or null at either failure.

The first regex: after the literal dashes, backtracking tries the greedy
`\s*` from its longest possible extent downward; for each length `k` the
literal newline must match and the lazy group then extends to the nearest
later occurrence of a newline followed by three dashes.  `tryK r k` realises
exactly this search, with `k` descending from the maximal whitespace run. -/

/-- One backtracking pass of `^---\s*\n([\s\S]*?)\n---` after the opening
`---` has been consumed: `r` is the remaining text, `k` the current length
tried for `\s*` (descending).  Returns the captured group (the header body). -/
def tryK (r : Str) : Nat → Option Str
  | 0 =>
      if r.get? 0 = some '\n' then
        (findSub (strL "\n---") (r.drop 1)).map (fun j => (r.drop 1).take j)
      else none
  | k + 1 =>
      if r.get? (k + 1) = some '\n' then
        match findSub (strL "\n---") (r.drop (k + 2)) with
        | some j => some ((r.drop (k + 2)).take j)
        | none => tryK r k
      else tryK r k

/-- The captured frontmatter body of the anchored header regex, or `none`
when the document does not begin with such a header. -/
def frontmatterBody (c : Str) : Option Str :=
  if (strL "---").isPrefixOf c then tryK (c.drop 3) (wsLen (c.drop 3))
  else none

/-- One backtracking pass of the `\s*(.+)$` tail of the field regex: `t` is
the text following `field:`, `k` the current length tried for `\s*`
(descending from the maximal whitespace run).  `.` does not match `'\n'`, so
the attempt at `k` succeeds exactly when a non-newline character stands at
position `k`; the greedy `.+` then captures up to the end of that line. -/
def attemptK (t : Str) : Nat → Option Str
  | 0 =>
      match t.get? 0 with
      | some ch => if ch = '\n' then none else some (t.takeWhile (· != '\n'))
      | none => none
  | k + 1 =>
      match t.get? (k + 1) with
      | some ch =>
          if ch = '\n' then attemptK t k
          else some ((t.drop (k + 1)).takeWhile (· != '\n'))
      | none => attemptK t k

/-- Match `\s*(.+)$` against the text following `field:`. -/
def attemptVal (t : Str) : Option Str := attemptK t (wsLen t)

/-- The multiline search `^field:\s*(.+)$` over the header body: try each
line start in order; at a line starting with `field:` run the tail match;
on failure continue with the next line.  (Fuelled for structural recursion;
see `fieldSearchFuel_congr`.) -/
def fieldSearchFuel (f : Str) : Nat → Str → Option Str
  | 0, _ => none
  | fuel + 1, y =>
      if y = [] then none
      else
        match (if (f ++ [':']).isPrefixOf y then attemptVal (y.drop (f.length + 1))
               else none) with
        | some v => some v
        | none => fieldSearchFuel f fuel (dropLine y)

/-- The multiline field-line search over the header body. -/
def fieldSearch (f : Str) (y : Str) : Option Str := fieldSearchFuel f (y.length + 1) y

theorem fieldSearchFuel_congr (f : Str) : ∀ fuel₁ fuel₂ y,
    y.length < fuel₁ → y.length < fuel₂ →
    fieldSearchFuel f fuel₁ y = fieldSearchFuel f fuel₂ y := by
  intro fuel₁
  induction fuel₁ with
  | zero => intro fuel₂ y h1; omega
  | succ f1 ih =>
      intro fuel₂ y h1 h2
      cases fuel₂ with
      | zero => omega
      | succ f2 =>
          by_cases hy : y = []
          · simp [fieldSearchFuel, hy]
          · simp only [fieldSearchFuel, hy, if_false]
            have hlt := dropLine_length_lt y hy
            rw [ih f2 (dropLine y) (by omega) (by omega)]

theorem fieldSearch_nil (f : Str) : fieldSearch f [] = none := rfl

theorem fieldSearch_cons (f y : Str) (h : y ≠ []) :
    fieldSearch f y =
      match (if (f ++ [':']).isPrefixOf y then attemptVal (y.drop (f.length + 1))
             else none) with
      | some v => some v
      | none => fieldSearch f (dropLine y) := by
  unfold fieldSearch
  have hlt := dropLine_length_lt y h
  conv_lhs => rw [fieldSearchFuel]
  simp only [h, if_false]
  rw [fieldSearchFuel_congr f y.length ((dropLine y).length + 1) (dropLine y)
    (by omega) (by omega)]

/-- `extractYamlField(content, field)` from the source. -/
def extractYamlField (content f : Str) : Option Str :=
  (frontmatterBody content).bind (fun y => (fieldSearch f y).map trimChars)

/-! ## Filesystem model

A Skill Root is a directory; `entries` are its immediate directory entries
as returned by `fs.readdirSync(dir, { withFileTypes: true })`, in listing
order.  For an entry `e`, `e.skillMd = some content` models that the file
`<root>/<e.ename>/SKILL.md` exists with that content; `e.isDirOrLink`
models `entry.isDirectory() || entry.isSymbolicLink()`.  `readable = false`
models a root whose `readdirSync` throws (caught and skipped by
`findAllSkills`, fatal for the single-directory variant). -/

structure DirEntry where
  ename : Str
  isDirOrLink : Bool
  skillMd : Option Str
deriving DecidableEq

structure Root where
  rpath : Str
  readable : Bool
  entries : List DirEntry
deriving DecidableEq

/-- `path.join(a, b).replace(/\\\\/g, ...)` for POSIX paths: `a ++ "/" ++ b`
(modelled for inputs without trailing slashes or dot segments, which is how
the source always calls it). -/
def pathJoin (a b : Str) : Str := a ++ '/' :: b

/-- One skill record as built by `findAllSkills` (name, description,
location, path). -/
structure SkillInfo where
  name : Str
  description : Str
  location : Str
  path : Str
deriving DecidableEq

/-- JavaScript `x || fallback` on a nullable string: `null` and the empty
string are both falsy. -/
def orElseStr (x : Option Str) (d : Str) : Str :=
  match x with
  | none => d
  | some v => if v = [] then d else v

/-- The display name computed by the catalog build:
`extractYamlField(content, "name") || skillName`. -/
def displayNameOf (content fallback : Str) : Str :=
  orElseStr (extractYamlField content (strL "name")) fallback

/-- The description computed by the catalog build:
`extractYamlField(content, "description") || ""`. -/
def descriptionOf (content : Str) : Str :=
  (extractYamlField content (strL "description")).getD []

/-- The `location` tag computed by `findAllSkills` from the root path
(`dir.includes(".agent")` / `dir.includes(os.homedir())`). -/
def locationOf (home dir : Str) : Str :=
  if strContains dir (strL ".agent") then
    if strContains dir home then strL "global-universal" else strL "project-universal"
  else
    if strContains dir home then strL "global" else strL "project"

/-! ## `findAllSkills` (src/openskills-mcp.js lines 56–108)

The `Map` keyed by skill (directory) name is modelled as an association
list in insertion order; `Array.from(skills.values())` is `map Prod.snd`. -/

/-- Processing of one directory entry inside the `findAllSkills` loop:
skip non-directories, skip names already in the map (shadowed by a
higher-priority root), skip entries without `SKILL.md`, otherwise read the
metadata and insert. -/
def processEntry (home dir : Str) (m : List (Str × SkillInfo)) (e : DirEntry) :
    List (Str × SkillInfo) :=
  if ¬ e.isDirOrLink then m
  else if m.any (fun p => p.1 = e.ename) then m
  else
    match e.skillMd with
    | none => m
    | some content =>
        m ++ [(e.ename,
          { name := displayNameOf content e.ename
            description := descriptionOf content
            location := locationOf home dir
            path := pathJoin dir e.ename })]

/-- Processing of one Skill Root inside `findAllSkills`: an unreadable root
is skipped (the `try`/`catch` around `readdirSync`), otherwise its entries
are folded in listing order. -/
def processRoot (home : Str) (m : List (Str × SkillInfo)) (r : Root) :
    List (Str × SkillInfo) :=
  if r.readable then r.entries.foldl (processEntry home r.rpath) m else m

/-- The deduplicating map built by `findAllSkills`, keyed by skill name. -/
def findAllSkillsKeyed (home : Str) (dirs : List Root) : List (Str × SkillInfo) :=
  dirs.foldl (processRoot home) []

/-- `findAllSkills()`: the catalog, in map insertion order. -/
def findAllSkills (home : Str) (dirs : List Root) : List SkillInfo :=
  (findAllSkillsKeyed home dirs).map Prod.snd

/-! ## `findSkill` / `loadSkillDirect` (src/openskills-mcp.js lines 114–149) -/

/-- `fs.existsSync(path.join(dir, skillName, "SKILL.md"))` for a modelled
root: some entry of that name has a `SKILL.md`. -/
def existsSkillMd (r : Root) (n : Str) : Bool :=
  r.entries.any (fun e => e.ename = n ∧ e.skillMd.isSome)

/-- The content of `<root>/<n>/SKILL.md` in a modelled root. -/
def readSkillMd (r : Root) (n : Str) : Option Str :=
  (r.entries.find? (fun e => e.ename = n ∧ e.skillMd.isSome)).bind (fun e => e.skillMd)

/-- `findSkill(skillName)`: walk the search dirs in priority order and
return the paths from the first root whose `<root>/<skillName>/SKILL.md`
exists. -/
def findSkill : List Root → Str → Option (Str × Str)
  | [], _ => none
  | r :: rest, n =>
      if existsSkillMd r n then
        some (pathJoin r.rpath n, pathJoin (pathJoin r.rpath n) (strL "SKILL.md"))
      else findSkill rest n

/-- The root selected by `findSkill` (needed to model the subsequent
`readFileSync` of the returned path). -/
def findSkillRoot : List Root → Str → Option Root
  | [], _ => none
  | r :: rest, n => if existsSkillMd r n then some r else findSkillRoot rest n

structure LoadResult where
  skillName : Str
  baseDir : Str
  content : Str
deriving DecidableEq

/-- `loadSkillDirect(skillName)`: resolve, read `SKILL.md`, trim, or throw
`Skill not found: <name>`. -/
def loadSkillDirect (dirs : List Root) (n : Str) : Except Str LoadResult :=
  match findSkillRoot dirs n with
  | none => Except.error (strL "Skill not found: " ++ n)
  | some r =>
      Except.ok
        { skillName := n
          baseDir := pathJoin r.rpath n
          content := trimChars ((readSkillMd r n).getD []) }

/-! ## Single-directory variant (src/openskills.js lines 41–92)

`findSkillsInDir(skillsDir)` expands a leading `~`, resolves against the
current working directory, requires the directory to exist, and builds the
catalog of that one directory, keeping only bundles with a non-empty
description.  The filesystem is passed as `fsys`, mapping an absolute
directory path to its root when the directory exists. -/

/-- Leading-tilde expansion:
`skillsDir.startsWith("~") ? path.join(os.homedir(), skillsDir.slice(1)) : skillsDir`.
`path.join` collapses the doubled separator when the remainder already
starts with a slash. -/
def expandTilde (home sd : Str) : Str :=
  match sd with
  | '~' :: rest =>
      (match rest with
       | [] => home
       | '/' :: rest' => pathJoin home rest'
       | _ => pathJoin home rest)
  | _ => sd

/-- `path.resolve(p)` (modelled for already-normalised paths): an absolute
path is returned as is, a relative one is joined onto the current working
directory. -/
def resolveAbs (cwd p : Str) : Str :=
  match p with
  | '/' :: _ => p
  | [] => cwd
  | _ => pathJoin cwd p

/-- The resolved absolute skills directory of the single-directory variant. -/
def resolvedSkillsDir (home cwd sd : Str) : Str :=
  resolveAbs cwd (expandTilde home sd)

/-- The acceptance gate of the single-directory variant:
`rawDescription` must be present and trim to a non-empty string
(`!rawDescription || rawDescription.trim().length === 0` skips). -/
def dirVariantAccepts (content : Str) : Bool :=
  match extractYamlField content (strL "description") with
  | none => false
  | some v => ¬ (v = [] ∨ trimChars v = [])

/-- One catalog entry of the single-directory variant. -/
structure SkillEntry where
  name : Str
  description : Str
  path : Str
deriving DecidableEq

/-- Per-entry processing of `findSkillsInDir`'s loop. -/
def dirVariantEntry (absDir : Str) (acc : List SkillEntry) (e : DirEntry) :
    List SkillEntry :=
  if ¬ e.isDirOrLink then acc
  else
    match e.skillMd with
    | none => acc
    | some content =>
        if dirVariantAccepts content then
          acc ++ [{ name := displayNameOf content e.ename
                    description := descriptionOf content
                    path := pathJoin absDir e.ename }]
        else acc

/-- `findSkillsInDir(skillsDir)`: tilde expansion, resolution, existence
check (else `Skills directory does not exist: <abs>`), readability check
(else `Failed to read directory <abs>`), then the filtered catalog. -/
def findSkillsInDir (home cwd : Str) (fsys : Str → Option Root) (sd : Str) :
    Except Str (List SkillEntry) :=
  let abs := resolvedSkillsDir home cwd sd
  match fsys abs with
  | none => Except.error (strL "Skills directory does not exist: " ++ abs)
  | some root =>
      if root.readable then
        Except.ok (root.entries.foldl (dirVariantEntry abs) [])
      else Except.error (strL "Failed to read directory " ++ abs)

/-! ## Command executor (src/openskills-mcp.js lines 336–388)

The `execute_skill` handler races the child process's events against a
60000 ms timer inside a promise.  Node's event loop delivers the stream,
`close`, `error` and timer callbacks sequentially, so the handler is a
deterministic state machine over the sequence of delivered events.
`resolve` settles the promise at most once: later calls are ignored,
modelled by `resolveWith`.  `clearTimeout` is modelled by `timerActive`;
`child.kill()` by the `killed` flag. -/

/-- The wall-clock deadline passed to `setTimeout`, in milliseconds. -/
def TIMEOUT_MS : Nat := 60000

/-- The placeholder substituted for an empty stdout on success. -/
def noOutputPlaceholder : Str := strL "(no output)"

/-- The four `resolve` payloads of the handler, kept structurally. -/
inductive Outcome where
  /-- `Command timed out after 60s` with the stdout/stderr captured so far
  (`isError: true`). -/
  | timeoutOut (stdout stderr : Str)
  /-- `Exit code: <code>` with full stdout/stderr (`isError: true`);
  `code` is `none` when the process was terminated by a signal
  (`close` delivers `null`). -/
  | exitError (code : Option Int) (stdout stderr : Str)
  /-- Success text: `stdout || "(no output)"`. -/
  | exitSuccess (text : Str)
  /-- `err.message` from the `error` event (`isError: true`). -/
  | spawnErr (msg : Str)
deriving DecidableEq

/-- Events delivered by the event loop to the handler's callbacks. -/
inductive ExecEvent where
  | dataOut (d : Str)
  | dataErr (d : Str)
  | close (code : Option Int)
  | errorEv (msg : Str)
  | timerFire
deriving DecidableEq

structure ExecState where
  stdout : Str
  stderr : Str
  timerActive : Bool
  killed : Bool
  resolved : Option Outcome
deriving DecidableEq

/-- The state when the promise executor returns: empty buffers, timer armed,
promise pending. -/
def initExecState : ExecState :=
  { stdout := [], stderr := [], timerActive := true, killed := false, resolved := none }

/-- Settle the promise: only the first `resolve` takes effect. -/
def resolveWith (s : ExecState) (o : Outcome) : ExecState :=
  if s.resolved.isSome then s else { s with resolved := some o }

/-- One event handled by the `execute_skill` callbacks. -/
def execStep (s : ExecState) : ExecEvent → ExecState
  | ExecEvent.dataOut d => { s with stdout := s.stdout ++ d }
  | ExecEvent.dataErr d => { s with stderr := s.stderr ++ d }
  | ExecEvent.timerFire =>
      if s.timerActive then
        resolveWith { s with killed := true, timerActive := false }
          (Outcome.timeoutOut s.stdout s.stderr)
      else s
  | ExecEvent.close code =>
      resolveWith { s with timerActive := false }
        (if code ≠ some 0 then Outcome.exitError code s.stdout s.stderr
         else Outcome.exitSuccess (if s.stdout = [] then noOutputPlaceholder else s.stdout))
  | ExecEvent.errorEv m =>
      resolveWith { s with timerActive := false } (Outcome.spawnErr m)

/-- Run the handler over a whole delivered event sequence. -/
def runExec (tr : List ExecEvent) : ExecState :=
  tr.foldl execStep initExecState

/-! ## Load record store (src/openskills-mcp.js lines 155–172, 276–285)

`skillCache` is a `Map` from skill name to `{name, baseDir, loadedAt}`,
mirrored to `~/.openskills-mcp-cache.json` as pretty-printed JSON
(`JSON.stringify(Object.fromEntries(skillCache), null, 2)`); at start the
file is parsed back (`new Map(Object.entries(JSON.parse(...)))`), any
failure giving an empty map.  The serialisation is embedded concretely:
`stringifyCache` produces exactly the `JSON.stringify(·, null, 2)` text of
the mapping, and `parseCache` is the mapping-shaped fragment of
`JSON.parse` (any text it rejects makes initialisation start empty). -/

structure CacheEntry where
  name : Str
  baseDir : Str
  loadedAt : Nat
deriving DecidableEq

/-- JavaScript `Map.prototype.set`: replace in place when the key exists,
append otherwise. -/
def mapSet (m : List (Str × CacheEntry)) (k : Str) (v : CacheEntry) :
    List (Str × CacheEntry) :=
  if m.any (fun p => p.1 = k) then
    m.map (fun p => if p.1 = k then (k, v) else p)
  else m ++ [(k, v)]

/-- JSON string escaping as performed by `JSON.stringify` on the characters
that can occur in a Lean-modelled string (no unpaired surrogates). -/
def escChar (c : Char) : Str :=
  if c = '"' then ['\\', '"']
  else if c = '\\' then ['\\', '\\']
  else if c = '\x08' then ['\\', 'b']
  else if c = '\x0c' then ['\\', 'f']
  else if c = '\n' then ['\\', 'n']
  else if c = '\r' then ['\\', 'r']
  else if c = '\t' then ['\\', 't']
  else if c.toNat < 32 then
    ['\\', 'u', '0', '0', hexDigitL (c.toNat / 16), hexDigitL (c.toNat % 16)]
  else [c]
where
  /-- Lower-case hexadecimal digit. -/
  hexDigitL (d : Nat) : Char :=
    match d with
    | 0 => '0' | 1 => '1' | 2 => '2' | 3 => '3' | 4 => '4'
    | 5 => '5' | 6 => '6' | 7 => '7' | 8 => '8' | 9 => '9'
    | 10 => 'a' | 11 => 'b' | 12 => 'c' | 13 => 'd' | 14 => 'e'
    | _ => 'f'

def escStr (s : Str) : Str := s.foldr (fun c acc => escChar c ++ acc) []

def renderString (s : Str) : Str := '"' :: (escStr s ++ ['"'])

/-- Decimal digit character. -/
def digitChar (d : Nat) : Char :=
  match d with
  | 0 => '0' | 1 => '1' | 2 => '2' | 3 => '3' | 4 => '4'
  | 5 => '5' | 6 => '6' | 7 => '7' | 8 => '8' | _ => '9'

/-- Decimal rendering of a natural number, most significant digit first. -/
def natDigits (n : Nat) : Str :=
  if h : n < 10 then [digitChar n]
  else natDigits (n / 10) ++ [digitChar (n % 10)]
termination_by n
decreasing_by exact Nat.div_lt_self (by omega) (by omega)

/-- `JSON.stringify` of one cache record at nesting depth 2. -/
def renderEntryVal (v : CacheEntry) : Str :=
  strL "\x7b\n    \"name\": " ++ renderString v.name ++
  strL ",\n    \"baseDir\": " ++ renderString v.baseDir ++
  strL ",\n    \"loadedAt\": " ++ natDigits v.loadedAt ++
  strL "\n  \x7d"

/-- One top-level key/value line (indent 2). -/
def renderPair (k : Str) (v : CacheEntry) : Str :=
  strL "  " ++ renderString k ++ strL ": " ++ renderEntryVal v

def renderEntries : List (Str × CacheEntry) → Str
  | [] => []
  | [(k, v)] => renderPair k v
  | (k, v) :: rest => renderPair k v ++ strL ",\n" ++ renderEntries rest

/-- `JSON.stringify(Object.fromEntries(skillCache), null, 2)`. -/
def stringifyCache (m : List (Str × CacheEntry)) : Str :=
  if m = [] then strL "\x7b\x7d" else strL "\x7b\n" ++ renderEntries m ++ strL "\n\x7d"

/-- Value of a hexadecimal digit character. -/
def hexVal (c : Char) : Option Nat :=
  if '0' ≤ c ∧ c ≤ '9' then some (c.toNat - 48)
  else if 'a' ≤ c ∧ c ≤ 'f' then some (c.toNat - 87)
  else if 'A' ≤ c ∧ c ≤ 'F' then some (c.toNat - 55)
  else none

/-- JSON string body parser (the part of `JSON.parse` the persisted values
exercise): consumes up to and including the closing quote, decoding
escapes, and returns the decoded text and the remainder. -/
def parseStringBody : Str → Option (Str × Str)
  | [] => none
  | c :: rest =>
      if c = '"' then some ([], rest)
      else if c = '\\' then
        match rest with
        | [] => none
        | e :: r =>
            if e = '"' then (parseStringBody r).map (fun p => ('"' :: p.1, p.2))
            else if e = '\\' then (parseStringBody r).map (fun p => ('\\' :: p.1, p.2))
            else if e = '/' then (parseStringBody r).map (fun p => ('/' :: p.1, p.2))
            else if e = 'b' then (parseStringBody r).map (fun p => ('\x08' :: p.1, p.2))
            else if e = 'f' then (parseStringBody r).map (fun p => ('\x0c' :: p.1, p.2))
            else if e = 'n' then (parseStringBody r).map (fun p => ('\n' :: p.1, p.2))
            else if e = 'r' then (parseStringBody r).map (fun p => ('\r' :: p.1, p.2))
            else if e = 't' then (parseStringBody r).map (fun p => ('\t' :: p.1, p.2))
            else if e = 'u' then
              match r with
              | h1 :: h2 :: h3 :: h4 :: r' =>
                  match hexVal h1, hexVal h2, hexVal h3, hexVal h4 with
                  | some v1, some v2, some v3, some v4 =>
                      (parseStringBody r').map
                        (fun p => (Char.ofNat (4096 * v1 + 256 * v2 + 16 * v3 + v4) :: p.1, p.2))
                  | _, _, _, _ => none
              | _ => none
            else none
      else (parseStringBody rest).map (fun p => (c :: p.1, p.2))
termination_by s => s.length
decreasing_by all_goals simp_arith [List.length]

def isDigitCh (c : Char) : Bool := '0' ≤ c && c ≤ '9'

def natOfDigits (l : Str) : Nat := l.foldl (fun a c => a * 10 + (c.toNat - 48)) 0

/-- JSON natural-number parser (the `loadedAt` values are timestamps). -/
def parseNat (s : Str) : Option (Nat × Str) :=
  let ds := s.takeWhile isDigitCh
  if ds = [] then none else some (natOfDigits ds, s.dropWhile isDigitCh)

/-- Expect a literal token. -/
def expectPre (pat s : Str) : Option Str :=
  if pat.isPrefixOf s then some (s.drop pat.length) else none

/-- Parse one `{ "name": …, "baseDir": …, "loadedAt": … }` object in the
layout `JSON.stringify(·, null, 2)` writes at depth 2.  (`parseCache`
models the fragment of `JSON.parse` exercised by the files this program
itself writes; any other layout is conservatively treated as a parse
failure, which the initialisation maps to the empty store.) -/
def parseEntryVal (s : Str) : Option (CacheEntry × Str) :=
  (expectPre (strL "\x7b\n    \"name\": \"") s).bind fun r1 =>
  (parseStringBody r1).bind fun p1 =>
  (expectPre (strL ",\n    \"baseDir\": \"") p1.2).bind fun r2 =>
  (parseStringBody r2).bind fun p2 =>
  (expectPre (strL ",\n    \"loadedAt\": ") p2.2).bind fun r3 =>
  (parseNat r3).bind fun p3 =>
  (expectPre (strL "\n  \x7d") p3.2).map fun r4 =>
  ({ name := p1.1, baseDir := p2.1, loadedAt := p3.1 }, r4)

/-- Parse the members of a non-empty object (fuelled loop; the fuel is
bounded by the text length at the call site). -/
def parseEntriesLoop : Nat → Str → Option (List (Str × CacheEntry) × Str)
  | 0, _ => none
  | fuel + 1, s =>
      (expectPre (strL "  \"") s).bind fun r =>
      (parseStringBody r).bind fun pk =>
      (expectPre (strL ": ") pk.2).bind fun r1 =>
      (parseEntryVal r1).bind fun pv =>
      match pv.2 with
      | ',' :: '\n' :: r2 =>
          (parseEntriesLoop fuel r2).map (fun pl => ((pk.1, pv.1) :: pl.1, pl.2))
      | '\n' :: '}' :: r2 => some ([(pk.1, pv.1)], r2)
      | _ => none

/-- The mapping-shaped fragment of `JSON.parse` used at initialisation. -/
def parseCache (s : Str) : Option (List (Str × CacheEntry)) :=
  if s = strL "\x7b\x7d" then some []
  else
    match s with
    | '{' :: '\n' :: r =>
        match parseEntriesLoop (r.length + 1) r with
        | some (m, rest) => if rest = [] then some m else none
        | none => none
    | _ => none

/-- Initialisation of `skillCache` from the persisted file: a missing file
or any parse failure yields the empty map. -/
def initCache (file : Option Str) : List (Str × CacheEntry) :=
  match file with
  | none => []
  | some txt => (parseCache txt).getD []

/-- The `load_skill` tool handler (src/openskills-mcp.js lines 276–285):
resolve and read the skill, then upsert the cache entry and rewrite the
persisted file.  `now` is `Date.now()`.  Returns the load result together
with the new cache state; a resolution failure propagates before the cache
is touched. -/
def loadSkillHandler (dirs : List Root) (cache : List (Str × CacheEntry))
    (n : Str) (now : Nat) : Except Str (LoadResult × List (Str × CacheEntry)) :=
  match loadSkillDirect dirs n with
  | Except.error e => Except.error e
  | Except.ok res =>
      Except.ok (res, mapSet cache res.skillName
        { name := res.skillName, baseDir := res.baseDir, loadedAt := now })

/-! ## Executor lemmas and the temporal claims -/

theorem runExec_append (a b : List ExecEvent) :
    runExec (a ++ b) = b.foldl execStep (runExec a) := by
  simp [runExec, List.foldl_append]

/-- A settled promise is never re-settled: every event preserves the
resolved outcome. -/
theorem execStep_resolved_stable (s : ExecState) (e : ExecEvent) (o : Outcome)
    (h : s.resolved = some o) : (execStep s e).resolved = some o := by
  cases e <;> simp only [execStep, resolveWith, h] <;> split <;> simp_all

/-- The timer is still armed whenever the promise is still pending
(`clearTimeout` only happens together with, or after, a `resolve`). -/
theorem runExec_timer_inv (tr : List ExecEvent) :
    (runExec tr).resolved = none → (runExec tr).timerActive = true := by
  suffices h : ∀ s, (s.resolved = none → s.timerActive = true) →
      ∀ l : List ExecEvent,
        (l.foldl execStep s).resolved = none → (l.foldl execStep s).timerActive = true by
    exact h initExecState (fun _ => rfl) tr
  intro s hs l
  induction l generalizing s with
  | nil => exact hs
  | cons e rest ih =>
      intro hres
      refine ih (execStep s e) ?_ hres
      intro hnone
      cases e with
      | dataOut d => simp only [execStep] at hnone ⊢; exact hs hnone
      | dataErr d => simp only [execStep] at hnone ⊢; exact hs hnone
      | timerFire =>
          by_cases hact : s.timerActive = true
          · simp only [execStep, hact, if_true, resolveWith] at hnone
            by_cases hr : s.resolved.isSome
            · simp only [hr, if_true] at hnone
              simp [Option.isSome_iff_exists] at hr
              obtain ⟨o, ho⟩ := hr
              simp [ho] at hnone
            · simp only [hr] at hnone
              simp at hnone
          · have : execStep s ExecEvent.timerFire = s := by
              simp [execStep, hact]
            rw [this] at hnone ⊢
            exact hs hnone
      | close c =>
          simp only [execStep, resolveWith] at hnone
          by_cases hr : s.resolved.isSome
          · simp only [hr, if_true] at hnone
            simp [Option.isSome_iff_exists] at hr
            obtain ⟨o, ho⟩ := hr
            simp [ho] at hnone
          · simp only [hr] at hnone
            simp at hnone
      | errorEv m =>
          simp only [execStep, resolveWith] at hnone
          by_cases hr : s.resolved.isSome
          · simp only [hr, if_true] at hnone
            simp [Option.isSome_iff_exists] at hr
            obtain ⟨o, ho⟩ := hr
            simp [ho] at hnone
          · simp only [hr] at hnone
            simp at hnone

theorem runExec_resolved_stable (tr tr₂ : List ExecEvent) (o : Outcome)
    (h : (runExec tr).resolved = some o) : (runExec (tr ++ tr₂)).resolved = some o := by
  rw [runExec_append]
  induction tr₂ generalizing tr with
  | nil => exact h
  | cons e rest ih =>
      have h1 : (execStep (runExec tr) e).resolved = some o :=
        execStep_resolved_stable _ e o h
      have := ih (tr ++ [e]) (by rw [runExec_append]; simpa using h1)
      rw [runExec_append] at this
      simpa using this

/-- **C2.** If the process has not terminated within the 60 s deadline (the
promise is still pending when the timer fires), the child is killed and a
timeout outcome carrying the stdout/stderr captured so far is produced; at
most one outcome is ever produced (a settled outcome survives every later
event, so timeout and completion are mutually exclusive); and completion or
spawn failure before the deadline disarms the pending timer
(`clearTimeout`). -/
theorem execute_timeout_exclusive (tr : List ExecEvent) :
    ((runExec tr).resolved = none →
      (execStep (runExec tr) ExecEvent.timerFire).killed = true ∧
      (execStep (runExec tr) ExecEvent.timerFire).resolved =
        some (Outcome.timeoutOut (runExec tr).stdout (runExec tr).stderr)) ∧
    (∀ o tr₂, (runExec tr).resolved = some o → (runExec (tr ++ tr₂)).resolved = some o) ∧
    (∀ c, (runExec (tr ++ [ExecEvent.close c])).timerActive = false) ∧
    (∀ m, (runExec (tr ++ [ExecEvent.errorEv m])).timerActive = false) := by
  refine ⟨?_, ?_, ?_, ?_⟩
  · intro h
    have hact := runExec_timer_inv tr h
    constructor
    · simp [execStep, hact, resolveWith, h]
    · simp [execStep, hact, resolveWith, h]
  · intro o tr₂ h
    exact runExec_resolved_stable tr tr₂ o h
  · intro c
    rw [runExec_append]
    simp only [List.foldl_cons, List.foldl_nil, execStep, resolveWith]
    by_cases hr : (runExec tr).resolved.isSome <;> simp [hr]
  · intro m
    rw [runExec_append]
    simp only [List.foldl_cons, List.foldl_nil, execStep, resolveWith]
    by_cases hr : (runExec tr).resolved.isSome <;> simp [hr]

/-- Witness for C2 at a concrete trace: with no prior event the timer firing
kills the child and settles the promise on the timeout outcome. -/
theorem execute_timeout_exclusive_witness :
    (execStep (runExec []) ExecEvent.timerFire).killed = true ∧
    (execStep (runExec []) ExecEvent.timerFire).resolved =
      some (Outcome.timeoutOut [] []) := by
  have h := (execute_timeout_exclusive []).1 (by decide)
  exact ⟨h.1, h.2⟩

/-- **C5.** A process that terminates (the `close` event arrives while the
promise is pending, i.e. before the timeout fired) produces: on exit
status 0 a success outcome carrying the captured stdout, with the
`(no output)` placeholder substituted when stdout is empty; on a non-zero
exit status an error outcome carrying that exit code and the full captured
stdout and stderr. -/
theorem execute_close_outcome (tr : List ExecEvent) (c : Int)
    (h : (runExec tr).resolved = none) :
    (runExec (tr ++ [ExecEvent.close (some c)])).resolved =
      some (if c = 0 then
              Outcome.exitSuccess
                (if (runExec tr).stdout = [] then noOutputPlaceholder
                 else (runExec tr).stdout)
            else Outcome.exitError (some c) (runExec tr).stdout (runExec tr).stderr) := by
  rw [runExec_append]
  simp only [List.foldl_cons, List.foldl_nil, execStep, resolveWith, h]
  by_cases hc : c = 0 <;> simp [hc]

/-- Witness for C5: `exit 0` with no output yields the placeholder;
`exit 7` yields the error outcome carrying code 7. -/
theorem execute_close_outcome_witness :
    (runExec [ExecEvent.close (some 0)]).resolved =
      some (Outcome.exitSuccess noOutputPlaceholder) ∧
    (runExec [ExecEvent.dataOut (strL "hi"), ExecEvent.close (some 7)]).resolved =
      some (Outcome.exitError (some 7) (strL "hi") []) := by
  constructor
  · have h := execute_close_outcome [] 0 (by decide)
    simpa using h
  · have h := execute_close_outcome [ExecEvent.dataOut (strL "hi")] 7 (by decide)
    have h2 : (runExec [ExecEvent.dataOut (strL "hi")]).stdout = strL "hi" := by decide
    have h3 : (runExec [ExecEvent.dataOut (strL "hi")]).stderr = [] := by decide
    rw [h2, h3] at h
    simpa using h

/-- **C6.** A spawn-time failure (the `error` event, delivered while the
promise is pending) produces the distinct spawn-error outcome carrying the
underlying failure message, disarms the timer, and no timeout outcome can
race against it: the spawn-error outcome survives every later event,
including a timer firing. -/
theorem execute_spawn_error (tr : List ExecEvent) (m : Str)
    (h : (runExec tr).resolved = none) :
    (runExec (tr ++ [ExecEvent.errorEv m])).resolved = some (Outcome.spawnErr m) ∧
    (runExec (tr ++ [ExecEvent.errorEv m])).timerActive = false ∧
    ∀ tr₂, (runExec ((tr ++ [ExecEvent.errorEv m]) ++ tr₂)).resolved =
      some (Outcome.spawnErr m) := by
  have h1 : (runExec (tr ++ [ExecEvent.errorEv m])).resolved = some (Outcome.spawnErr m) := by
    rw [runExec_append]
    simp [execStep, resolveWith, h]
  refine ⟨h1, ?_, ?_⟩
  · rw [runExec_append]
    simp only [List.foldl_cons, List.foldl_nil, execStep, resolveWith]
    by_cases hr : (runExec tr).resolved.isSome <;> simp [hr]
  · intro tr₂
    exact runExec_resolved_stable _ tr₂ _ h1

/-- Witness for C6: a failed spawn reports the error message and a later
timer firing does not displace it. -/
theorem execute_spawn_error_witness :
    (runExec [ExecEvent.errorEv (strL "spawn failed")]).resolved =
      some (Outcome.spawnErr (strL "spawn failed")) ∧
    (runExec ([ExecEvent.errorEv (strL "spawn failed")] ++ [ExecEvent.timerFire])).resolved =
      some (Outcome.spawnErr (strL "spawn failed")) := by
  have h := execute_spawn_error [] (strL "spawn failed") (by decide)
  exact ⟨by simpa using h.1, by simpa using h.2.2 [ExecEvent.timerFire]⟩

/-! ## C9: resolution is independent of the load record store -/

deriving instance DecidableEq for Except

/-- **C9.** The `load_skill` handler's result does not depend on the cache
state: resolution only consults the filesystem, the store being written on
success but never read — for any two cache states the returned load result
(or error) is identical, and on success the new cache state is exactly the
old one with the `{name, baseDir, loadedAt}` record upserted. -/
theorem load_skill_cache_noninterference (dirs : List Root) (n : Str) (now : Nat)
    (c₁ c₂ : List (Str × CacheEntry)) :
    (loadSkillHandler dirs c₁ n now).map Prod.fst =
      (loadSkillHandler dirs c₂ n now).map Prod.fst ∧
    (∀ res cache', loadSkillHandler dirs c₁ n now = Except.ok (res, cache') →
      res.skillName = n ∧
      cache' = mapSet c₁ n { name := n, baseDir := res.baseDir, loadedAt := now }) := by
  constructor
  · unfold loadSkillHandler
    cases h : loadSkillDirect dirs n <;> simp [Except.map]
  · intro res cache' hok
    unfold loadSkillHandler at hok
    cases h : loadSkillDirect dirs n with
    | error e => rw [h] at hok; exact absurd hok (by simp)
    | ok r =>
        rw [h] at hok
        have hr : r.skillName = n := by
          unfold loadSkillDirect at h
          cases hf : findSkillRoot dirs n <;> rw [hf] at h <;> simp at h
          rw [← h]
        simp only [Except.ok.injEq, Prod.mk.injEq] at hok
        obtain ⟨hres, hcache⟩ := hok
        subst hres
        exact ⟨hr, by rw [← hcache, hr]⟩

/-- A sample search-path root used by concrete witnesses. -/
def sampleRoot : Root :=
  { rpath := strL "/proj/.agent/skills"
    readable := true
    entries := [{ ename := strL "demo", isDirOrLink := true,
                  skillMd := some (strL "---\nname: Demo\ndescription: d\n---\nBody") }] }

/-- Witness for C9: with one concrete root, an empty and a non-empty cache
give the same load result, and the success writes the upserted record. -/
theorem load_skill_cache_noninterference_witness :
    (loadSkillHandler [sampleRoot] [] (strL "demo") 5).map Prod.fst =
      (loadSkillHandler [sampleRoot]
        [(strL "demo", { name := strL "demo", baseDir := strL "/old", loadedAt := 1 })]
        (strL "demo") 5).map Prod.fst ∧
    ((loadSkillHandler [sampleRoot] [] (strL "demo") 5).map Prod.snd =
      Except.ok [(strL "demo",
        { name := strL "demo", baseDir := strL "/proj/.agent/skills/demo", loadedAt := 5 })]) := by
  have h := load_skill_cache_noninterference [sampleRoot] (strL "demo") 5 []
    [(strL "demo", { name := strL "demo", baseDir := strL "/old", loadedAt := 1 })]
  exact ⟨h.1, by decide⟩

/-! ## C8: explicit directory resolution in the single-directory variant -/

/-- **C8.** In the single-directory variant, a leading `~` is replaced by
the user's home directory (the resolved path lies under `home`, and since
`home` is absolute, `path.resolve` leaves it unchanged), and when the
resolved directory does not exist the call fails with the
`Skills directory does not exist` error for exactly that path — there is no
fallback to the default root list. -/
theorem findSkillsInDir_tilde_and_missing (home cwd : Str) (fsys : Str → Option Root)
    (sd rest : Str) (h' : Str) (hh : home = '/' :: h') :
    (sd = '~' :: rest →
      resolvedSkillsDir home cwd sd = expandTilde home sd ∧
      ∃ suffix, expandTilde home sd = home ++ suffix) ∧
    (fsys (resolvedSkillsDir home cwd sd) = none →
      findSkillsInDir home cwd fsys sd =
        Except.error (strL "Skills directory does not exist: " ++
          resolvedSkillsDir home cwd sd)) := by
  constructor
  · rintro rfl
    have hexp : ∃ suffix, expandTilde home ('~' :: rest) = home ++ suffix := by
      cases rest with
      | nil => exact ⟨[], by simp [expandTilde]⟩
      | cons c r =>
          by_cases hc : c = '/'
          · subst hc; exact ⟨'/' :: r, by simp [expandTilde, pathJoin]⟩
          · refine ⟨'/' :: c :: r, ?_⟩
            cases c <;> simp_all [expandTilde, pathJoin]
    refine ⟨?_, hexp⟩
    obtain ⟨suffix, hs⟩ := hexp
    unfold resolvedSkillsDir
    rw [hs, hh]
    simp [resolveAbs]
  · intro hmiss
    simp [findSkillsInDir, hmiss]

/-- Witness for C8 at concrete paths: `~/.agent/skills` resolves under the
home directory, and a filesystem without it produces the error. -/
theorem findSkillsInDir_tilde_and_missing_witness :
    resolvedSkillsDir (strL "/home/u") (strL "/w") (strL "~/.agent/skills") =
      strL "/home/u/.agent/skills" ∧
    findSkillsInDir (strL "/home/u") (strL "/w") (fun _ => none) (strL "~/.agent/skills") =
      Except.error (strL "Skills directory does not exist: /home/u/.agent/skills") := by
  have h := findSkillsInDir_tilde_and_missing (strL "/home/u") (strL "/w") (fun _ => none)
    (strL "~/.agent/skills") (strL "/.agent/skills") (strL "home/u") (by decide)
  constructor
  · have h1 := (h.1 (by decide)).1
    rw [h1]
    decide
  · have h2 := h.2 rfl
    rw [h2]
    decide

/-! ## C4: single-skill resolution -/

/-- A well-known root that exists but holds no bundle, for witnesses. -/
def emptyRoot : Root :=
  { rpath := strL "/cwd/.agent/skills", readable := true, entries := [] }

theorem findSkillRoot_append_some (dirs₁ : List Root) (r : Root) (dirs₂ : List Root)
    (n : Str) (h1 : ∀ r' ∈ dirs₁, existsSkillMd r' n = false)
    (h2 : existsSkillMd r n = true) :
    findSkillRoot (dirs₁ ++ r :: dirs₂) n = some r := by
  induction dirs₁ with
  | nil => simp [findSkillRoot, h2]
  | cons a rest ih =>
      have ha : existsSkillMd a n = false := h1 a (by simp)
      simp only [List.cons_append, findSkillRoot, ha]
      simp only [Bool.false_eq_true, if_false]
      exact ih (fun r' hr' => h1 r' (by simp [hr']))

theorem findSkillRoot_eq_none_iff (dirs : List Root) (n : Str) :
    findSkillRoot dirs n = none ↔ ∀ r ∈ dirs, existsSkillMd r n = false := by
  induction dirs with
  | nil => simp [findSkillRoot]
  | cons a rest ih =>
      by_cases ha : existsSkillMd a n = true
      · simp [findSkillRoot, ha]
      · simp only [findSkillRoot, ha]
        simp only [Bool.false_eq_true, if_false]
        rw [ih]
        constructor
        · intro h r hr
          rcases List.mem_cons.mp hr with hr' | hr'
          · subst hr'; simpa using ha
          · exact h r hr'
        · intro h r hr
          exact h r (by simp [hr])

/-- Counterexample to C4 as stated: resolution of a missing skill fails with
the message `Skill not found: x` (capital `S`), not the claimed
`skill not found: x`. -/
theorem loadSkillDirect_message_counterexample :
    loadSkillDirect [] (strL "x") = Except.error (strL "Skill not found: x") ∧
    strL "Skill not found: x" ≠ strL "skill not found: x" := by
  decide

/-- **C4 (amended).** For every skill name, `load` iterates the Skill Roots
in priority order testing only whether `<root>/<skillName>/SKILL.md` exists,
returns `{skillName, baseDir, content}` for the first root where it exists
(a higher-priority root lacking the bundle-document file does not block
resolution at a lower-priority root), and fails with the message
`Skill not found: <name>` if and only if no root contains that file. -/
theorem loadSkillDirect_resolution (dirs : List Root) (n : Str) :
    (∀ dirs₁ r dirs₂, dirs = dirs₁ ++ r :: dirs₂ →
      (∀ r' ∈ dirs₁, existsSkillMd r' n = false) → existsSkillMd r n = true →
      ∃ res, loadSkillDirect dirs n = Except.ok res ∧
        res.skillName = n ∧ res.baseDir = pathJoin r.rpath n) ∧
    (loadSkillDirect dirs n = Except.error (strL "Skill not found: " ++ n) ↔
      ∀ r ∈ dirs, existsSkillMd r n = false) := by
  constructor
  · intro dirs₁ r dirs₂ hd h1 h2
    subst hd
    have hfind := findSkillRoot_append_some dirs₁ r dirs₂ n h1 h2
    refine ⟨{ skillName := n, baseDir := pathJoin r.rpath n,
              content := trimChars ((readSkillMd r n).getD []) }, ?_, rfl, rfl⟩
    unfold loadSkillDirect
    rw [hfind]
  · constructor
    · intro h
      rw [← findSkillRoot_eq_none_iff]
      unfold loadSkillDirect at h
      cases hf : findSkillRoot dirs n with
      | none => rfl
      | some r => rw [hf] at h; exact absurd h (by simp)
    · intro h
      have hf : findSkillRoot dirs n = none := (findSkillRoot_eq_none_iff dirs n).mpr h
      unfold loadSkillDirect
      rw [hf]

/-- Witness for C4: a root list without the bundle fails with the (capital)
message; prepending a bundle-less root does not block resolution at the
lower-priority root. -/
theorem loadSkillDirect_resolution_witness :
    loadSkillDirect [emptyRoot] (strL "demo") =
      Except.error (strL "Skill not found: demo") ∧
    (loadSkillDirect [emptyRoot, sampleRoot] (strL "demo")).map (fun r => r.baseDir) =
      Except.ok (strL "/proj/.agent/skills/demo") := by
  constructor
  · exact (loadSkillDirect_resolution [emptyRoot] (strL "demo")).2.mpr (by decide)
  · obtain ⟨res, hres, _, hbase⟩ :=
      (loadSkillDirect_resolution [emptyRoot, sampleRoot] (strL "demo")).1
        [emptyRoot] sampleRoot [] rfl (by decide) (by decide)
    rw [hres]
    simp only [Except.map]
    rw [hbase]
    decide

/-! ## C1: catalog build — deduplication, priority, insertion order -/

instance : Inhabited SkillInfo := ⟨⟨[], [], [], []⟩⟩

instance : Inhabited DirEntry := ⟨⟨[], false, none⟩⟩

/-- `e` is a valid bundle named `n`: a directory (or symlink) entry of that
name whose `SKILL.md` exists. -/
def validNamed (n : Str) (e : DirEntry) : Bool :=
  e.ename = n ∧ e.isDirOrLink ∧ e.skillMd.isSome

/-- The root contains a valid bundle named `n` (a subdirectory with a
`SKILL.md` file). -/
def hasValidBundle (r : Root) (n : Str) : Bool :=
  r.entries.any (validNamed n)

theorem processEntry_append (home dir : Str) (m : List (Str × SkillInfo)) (e : DirEntry) :
    ∃ t, processEntry home dir m e = m ++ t := by
  unfold processEntry
  by_cases h1 : e.isDirOrLink = true
  · simp only [h1]
    by_cases h2 : m.any (fun p => p.1 = e.ename) = true
    · exact ⟨[], by simp [h2]⟩
    · cases h3 : e.skillMd with
      | none => exact ⟨[], by simp [h2, h3]⟩
      | some content =>
          exact ⟨[(e.ename,
            { name := displayNameOf content e.ename
              description := descriptionOf content
              location := locationOf home dir
              path := pathJoin dir e.ename })], by simp [h2, h3]⟩
  · exact ⟨[], by simp [h1]⟩

theorem processEntry_any (home dir : Str) (m : List (Str × SkillInfo)) (e : DirEntry)
    (n : Str) :
    (processEntry home dir m e).any (fun p => p.1 = n) =
      (m.any (fun p => p.1 = n) || validNamed n e) := by
  unfold processEntry validNamed
  by_cases h1 : e.isDirOrLink = true
  · simp only [h1]
    by_cases h2 : m.any (fun p => p.1 = e.ename) = true
    · simp only [h2]
      by_cases hn : e.ename = n
      · subst hn
        simp [h2]
      · simp [hn, h2]
    · cases h3 : e.skillMd with
      | none => simp [h2, h3]
      | some content =>
          simp only [h2, h3]
          by_cases hn : e.ename = n
          · subst hn
            simp [h2, List.any_append]
          · simp [hn, List.any_append]
  · simp [h1]

theorem processEntry_countP (home dir : Str) (m : List (Str × SkillInfo)) (e : DirEntry)
    (n : Str) :
    (processEntry home dir m e).countP (fun p => p.1 = n) =
      m.countP (fun p => p.1 = n) +
        (if m.any (fun p => p.1 = n) = false ∧ validNamed n e = true then 1 else 0) := by
  unfold processEntry validNamed
  by_cases h1 : e.isDirOrLink = true
  · simp only [h1]
    by_cases h2 : m.any (fun p => p.1 = e.ename) = true
    · by_cases hn : e.ename = n
      · subst hn
        simp [h2]
      · simp [h2, hn]
    · cases h3 : e.skillMd with
      | none => simp [h2, h3]
      | some content =>
          simp only [h2, h3]
          by_cases hn : e.ename = n
          · subst hn
            simp [h2, List.countP_append]
          · simp [hn, List.countP_append, h2]
  · simp [h1]

/-- The first map entry for a key is unchanged by processing further
directory entries once the key is present. -/
theorem processEntry_find?_stable (home dir : Str) (m : List (Str × SkillInfo))
    (e : DirEntry) (n : Str) (h : (m.find? (fun p => p.1 = n)).isSome) :
    (processEntry home dir m e).find? (fun p => p.1 = n) =
      m.find? (fun p => p.1 = n) := by
  obtain ⟨t, ht⟩ := processEntry_append home dir m e
  rw [ht, List.find?_append]
  obtain ⟨v, hv⟩ := Option.isSome_iff_exists.mp h
  simp [hv]

theorem foldl_entries_append (home dir : Str) (es : List DirEntry) :
    ∀ m, ∃ t, es.foldl (processEntry home dir) m = m ++ t := by
  induction es with
  | nil => exact fun m => ⟨[], by simp⟩
  | cons e rest ih =>
      intro m
      obtain ⟨t1, ht1⟩ := processEntry_append home dir m e
      obtain ⟨t2, ht2⟩ := ih (processEntry home dir m e)
      refine ⟨t1 ++ t2, ?_⟩
      rw [List.foldl_cons, ht2, ht1, List.append_assoc]

theorem foldl_entries_any (home dir : Str) (es : List DirEntry) (n : Str) :
    ∀ m, (es.foldl (processEntry home dir) m).any (fun p => p.1 = n) =
      (m.any (fun p => p.1 = n) || es.any (validNamed n)) := by
  induction es with
  | nil => simp
  | cons e rest ih =>
      intro m
      simp only [List.foldl_cons, List.any_cons]
      rw [ih, processEntry_any]
      by_cases hm : m.any (fun p => p.1 = n) = true
      · simp [hm]
      · have hm' : m.any (fun p => p.1 = n) = false := Bool.eq_false_iff.mpr hm
        by_cases hv : validNamed n e = true
        · simp [hm', hv]
        · have hv' : validNamed n e = false := Bool.eq_false_iff.mpr hv
          simp [hm', hv']

theorem foldl_entries_countP (home dir : Str) (es : List DirEntry) (n : Str) :
    ∀ m, (es.foldl (processEntry home dir) m).countP (fun p => p.1 = n) =
      m.countP (fun p => p.1 = n) +
        (if m.any (fun p => p.1 = n) = false ∧ es.any (validNamed n) = true
         then 1 else 0) := by
  induction es with
  | nil => simp
  | cons e rest ih =>
      intro m
      simp only [List.foldl_cons, List.any_cons]
      rw [ih, processEntry_countP, processEntry_any]
      by_cases hm : m.any (fun p => p.1 = n) = true
      · simp [hm]
      · have hm' : m.any (fun p => p.1 = n) = false := Bool.eq_false_iff.mpr hm
        by_cases hv : validNamed n e = true
        · simp [hm', hv]
        · have hv' : validNamed n e = false := Bool.eq_false_iff.mpr hv
          simp [hm', hv']

theorem foldl_entries_find?_stable (home dir : Str) (es : List DirEntry) (n : Str) :
    ∀ m, (m.find? (fun p => p.1 = n)).isSome →
      (es.foldl (processEntry home dir) m).find? (fun p => p.1 = n) =
        m.find? (fun p => p.1 = n) := by
  induction es with
  | nil => intro m _; rfl
  | cons e rest ih =>
      intro m hm
      simp only [List.foldl_cons]
      have h1 := processEntry_find?_stable home dir m e n hm
      rw [ih (processEntry home dir m e) (by rw [h1]; exact hm), h1]

/-- A key the dedup check rejects has no map entry. -/
theorem find?_none_of_any_false (m : List (Str × SkillInfo)) (n : Str)
    (hm : m.any (fun p => p.1 = n) = false) :
    m.find? (fun p => p.1 = n) = none := by
  rw [List.find?_eq_none]
  intro x hx
  simp only [decide_eq_true_eq]
  intro hxn
  have : m.any (fun p => p.1 = n) = true :=
    List.any_eq_true.mpr ⟨x, hx, by simp [hxn]⟩
  rw [this] at hm
  exact absurd hm (by simp)

/-- When the key is absent and some entry is a valid bundle of that name,
the fold inserts exactly the record of the first such entry, whose path is
`<dir>/<n>`. -/
theorem foldl_entries_find?_new (home dir : Str) (es : List DirEntry) (n : Str) :
    ∀ m, m.any (fun p => p.1 = n) = false → es.any (validNamed n) = true →
      ∃ info, (es.foldl (processEntry home dir) m).find? (fun p => p.1 = n) =
        some (n, info) ∧ info.path = pathJoin dir n := by
  induction es with
  | nil => simp
  | cons e rest ih =>
      intro m hm hany
      simp only [List.foldl_cons]
      by_cases hv : validNamed n e = true
      · have hv' := hv
        unfold validNamed at hv'
        simp only [decide_eq_true_eq, Bool.and_eq_true] at hv'
        obtain ⟨he1, he2, he3s⟩ := hv'
        obtain ⟨content, he3⟩ := Option.isSome_iff_exists.mp he3s
        have hpe : processEntry home dir m e =
            m ++ [(n, (⟨displayNameOf content n, descriptionOf content,
              locationOf home dir, pathJoin dir n⟩ : SkillInfo))] := by
          unfold processEntry
          rw [he1, he2, he3, hm]
          simp
        refine ⟨⟨displayNameOf content n, descriptionOf content,
          locationOf home dir, pathJoin dir n⟩, ?_, rfl⟩
        have hmnone := find?_none_of_any_false m n hm
        have hfind : ((processEntry home dir m e).find? (fun p => p.1 = n)).isSome := by
          rw [hpe, List.find?_append, hmnone]
          simp
        rw [foldl_entries_find?_stable home dir rest n _ hfind, hpe,
          List.find?_append, hmnone]
        simp
      · have hv0 : validNamed n e = false := Bool.eq_false_iff.mpr hv
        have hrest : rest.any (validNamed n) = true := by
          simp only [List.any_cons, hv0, Bool.false_or] at hany
          exact hany
        have hm' : (processEntry home dir m e).any (fun p => p.1 = n) = false := by
          rw [processEntry_any, hm, hv0]
          rfl
        exact ih (processEntry home dir m e) hm' hrest

theorem processRoot_append (home : Str) (m : List (Str × SkillInfo)) (r : Root) :
    ∃ t, processRoot home m r = m ++ t := by
  unfold processRoot
  by_cases hr : r.readable = true
  · simp only [hr, if_true]
    exact foldl_entries_append home r.rpath r.entries m
  · simp only [hr]
    exact ⟨[], by simp⟩

theorem processRoot_any (home : Str) (m : List (Str × SkillInfo)) (r : Root) (n : Str)
    (hr : r.readable = true) :
    (processRoot home m r).any (fun p => p.1 = n) =
      (m.any (fun p => p.1 = n) || hasValidBundle r n) := by
  unfold processRoot hasValidBundle
  simp only [hr, if_true]
  exact foldl_entries_any home r.rpath r.entries n m

theorem processRoot_countP (home : Str) (m : List (Str × SkillInfo)) (r : Root) (n : Str)
    (hr : r.readable = true) :
    (processRoot home m r).countP (fun p => p.1 = n) =
      m.countP (fun p => p.1 = n) +
        (if m.any (fun p => p.1 = n) = false ∧ hasValidBundle r n = true
         then 1 else 0) := by
  unfold processRoot hasValidBundle
  simp only [hr, if_true]
  exact foldl_entries_countP home r.rpath r.entries n m

theorem processRoot_find?_stable (home : Str) (m : List (Str × SkillInfo)) (r : Root)
    (n : Str) (h : (m.find? (fun p => p.1 = n)).isSome) :
    (processRoot home m r).find? (fun p => p.1 = n) = m.find? (fun p => p.1 = n) := by
  unfold processRoot
  by_cases hr : r.readable = true
  · simp only [hr, if_true]
    exact foldl_entries_find?_stable home r.rpath r.entries n m h
  · simp [hr]

theorem foldl_roots_append (home : Str) (dirs : List Root) :
    ∀ m, ∃ t, dirs.foldl (processRoot home) m = m ++ t := by
  induction dirs with
  | nil => exact fun m => ⟨[], by simp⟩
  | cons r rest ih =>
      intro m
      obtain ⟨t1, ht1⟩ := processRoot_append home m r
      obtain ⟨t2, ht2⟩ := ih (processRoot home m r)
      refine ⟨t1 ++ t2, ?_⟩
      rw [List.foldl_cons, ht2, ht1, List.append_assoc]

theorem foldl_roots_any (home : Str) (dirs : List Root) (n : Str) :
    ∀ m, (∀ r ∈ dirs, r.readable = true) →
      (dirs.foldl (processRoot home) m).any (fun p => p.1 = n) =
        (m.any (fun p => p.1 = n) || dirs.any (fun r => hasValidBundle r n)) := by
  induction dirs with
  | nil => simp
  | cons r rest ih =>
      intro m hread
      simp only [List.foldl_cons, List.any_cons]
      rw [ih _ (fun r' hr' => hread r' (by simp [hr'])),
        processRoot_any home m r n (hread r (by simp)), Bool.or_assoc]

theorem foldl_roots_countP (home : Str) (dirs : List Root) (n : Str) :
    ∀ m, (∀ r ∈ dirs, r.readable = true) →
      (dirs.foldl (processRoot home) m).countP (fun p => p.1 = n) =
        m.countP (fun p => p.1 = n) +
          (if m.any (fun p => p.1 = n) = false ∧
              dirs.any (fun r => hasValidBundle r n) = true then 1 else 0) := by
  induction dirs with
  | nil => simp
  | cons r rest ih =>
      intro m hread
      simp only [List.foldl_cons, List.any_cons]
      rw [ih _ (fun r' hr' => hread r' (by simp [hr'])),
        processRoot_countP home m r n (hread r (by simp)),
        processRoot_any home m r n (hread r (by simp))]
      by_cases hm : m.any (fun p => p.1 = n) = true
      · simp [hm]
      · have hm' : m.any (fun p => p.1 = n) = false := Bool.eq_false_iff.mpr hm
        by_cases hv : hasValidBundle r n = true
        · simp [hm', hv]
        · have hv' : hasValidBundle r n = false := Bool.eq_false_iff.mpr hv
          simp [hm', hv']

theorem foldl_roots_find?_stable (home : Str) (dirs : List Root) (n : Str) :
    ∀ m, ((m.find? (fun p => p.1 = n)).isSome) →
      (dirs.foldl (processRoot home) m).find? (fun p => p.1 = n) =
        m.find? (fun p => p.1 = n) := by
  induction dirs with
  | nil => intro m _; rfl
  | cons r rest ih =>
      intro m hm
      simp only [List.foldl_cons]
      have h1 := processRoot_find?_stable home m r n hm
      rw [ih (processRoot home m r) (by rw [h1]; exact hm), h1]

/-- The record accepted for a duplicated name comes from the first root in
priority order that contains a valid bundle of that name. -/
theorem foldl_roots_find?_new (home : Str) (dirs : List Root) (n : Str) :
    ∀ m r, (∀ r' ∈ dirs, r'.readable = true) →
      m.any (fun p => p.1 = n) = false →
      dirs.find? (fun r' => hasValidBundle r' n) = some r →
      ∃ info, (dirs.foldl (processRoot home) m).find? (fun p => p.1 = n) =
        some (n, info) ∧ info.path = pathJoin r.rpath n := by
  induction dirs with
  | nil => intro m r _ _ hfind; exact absurd hfind (by simp)
  | cons a rest ih =>
      intro m r hread hm hfind
      simp only [List.foldl_cons]
      by_cases ha : hasValidBundle a n = true
      · have hfa : List.find? (fun r' => hasValidBundle r' n) (a :: rest) = some a := by
          simp [List.find?, ha]
        rw [hfa] at hfind
        have hra : r = a := (Option.some.inj hfind).symm
        subst hra
        have hread_a : r.readable = true := hread r (by simp)
        have hfold : processRoot home m r =
            r.entries.foldl (processEntry home r.rpath) m := by
          unfold processRoot
          simp [hread_a]
        obtain ⟨info, hinfo, hpath⟩ :=
          foldl_entries_find?_new home r.rpath r.entries n m hm ha
        refine ⟨info, ?_, hpath⟩
        rw [foldl_roots_find?_stable home rest n _ (by rw [hfold, hinfo]; simp), hfold,
          hinfo]
      · have ha' : hasValidBundle a n = false := Bool.eq_false_iff.mpr ha
        have hfa : List.find? (fun r' => hasValidBundle r' n) (a :: rest) =
            List.find? (fun r' => hasValidBundle r' n) rest := by
          simp [List.find?, ha']
        rw [hfa] at hfind
        have hm' : (processRoot home m a).any (fun p => p.1 = n) = false := by
          rw [processRoot_any home m a n (hread a (by simp)), hm, ha']
          rfl
        exact ih (processRoot home m a) r (fun r' hr' => hread r' (by simp [hr'])) hm' hfind

theorem findAllSkillsKeyed_append (home : Str) (ds₁ ds₂ : List Root) :
    findAllSkillsKeyed home (ds₁ ++ ds₂) =
      ds₂.foldl (processRoot home) (findAllSkillsKeyed home ds₁) := by
  unfold findAllSkillsKeyed
  rw [List.foldl_append]

/-- **C1.** When two or more Skill Roots contain a valid bundle (a
subdirectory with a `SKILL.md` file) of the same name, one catalog build
returns exactly one map entry for that name; that entry's path comes from
the root earliest in resolver priority order among those containing a valid
bundle of the name; and entries are produced in insertion order — the
catalog of any priority-order prefix of the roots is a prefix of the full
catalog, so higher-priority roots' bundles come first.  (All roots are
assumed listable; an unreadable root is skipped by the build.) -/
theorem findAllSkills_dedup (home : Str) (dirs : List Root) (n : Str)
    (hread : ∀ r ∈ dirs, r.readable = true)
    (hdup : 2 ≤ dirs.countP (fun r => hasValidBundle r n)) :
    ∃ r info,
      dirs.find? (fun r' => hasValidBundle r' n) = some r ∧
      (findAllSkillsKeyed home dirs).find? (fun p => p.1 = n) = some (n, info) ∧
      info.path = pathJoin r.rpath n ∧
      (findAllSkillsKeyed home dirs).countP (fun p => p.1 = n) = 1 ∧
      (∀ ds₁ ds₂, dirs = ds₁ ++ ds₂ →
        findAllSkillsKeyed home ds₁ <+: findAllSkillsKeyed home dirs ∧
        findAllSkills home ds₁ <+: findAllSkills home dirs) := by
  have hany : dirs.any (fun r => hasValidBundle r n) = true := by
    rw [List.any_eq_true]
    have hpos : 0 < dirs.countP (fun r => hasValidBundle r n) := by omega
    obtain ⟨r, hr, hp⟩ := List.countP_pos_iff.mp hpos
    exact ⟨r, hr, hp⟩
  have hsome : (dirs.find? (fun r' => hasValidBundle r' n)).isSome := by
    rw [List.find?_isSome]
    rw [List.any_eq_true] at hany
    obtain ⟨r, hr, hp⟩ := hany
    exact ⟨r, hr, hp⟩
  obtain ⟨r, hfind⟩ := Option.isSome_iff_exists.mp hsome
  obtain ⟨info, hinfo, hpath⟩ :=
    foldl_roots_find?_new home dirs n [] r hread (by simp) hfind
  refine ⟨r, info, hfind, hinfo, hpath, ?_, ?_⟩
  · have hc := foldl_roots_countP home dirs n [] hread
    simp only [List.countP_nil, List.any_nil] at hc
    unfold findAllSkillsKeyed
    rw [hc]
    simp [hany]
  · intro ds₁ ds₂ hd
    subst hd
    obtain ⟨t, ht⟩ := foldl_roots_append home ds₂ (findAllSkillsKeyed home ds₁)
    have hpre : findAllSkillsKeyed home ds₁ <+: findAllSkillsKeyed home (ds₁ ++ ds₂) := by
      refine ⟨t, ?_⟩
      rw [findAllSkillsKeyed_append, ht]
    exact ⟨hpre, by unfold findAllSkills; exact hpre.map Prod.snd⟩

/-- Two roots both holding a valid bundle `dup`, with different contents,
for the C1 witness. -/
def dupRootA : Root :=
  { rpath := strL "/proj/.agent/skills"
    readable := true
    entries := [{ ename := strL "dup", isDirOrLink := true,
                  skillMd := some (strL "---\nname: A\ndescription: a\n---") }] }

/-- See `dupRootA`. -/
def dupRootB : Root :=
  { rpath := strL "/home/u/.claude/skills"
    readable := true
    entries := [{ ename := strL "dup", isDirOrLink := true,
                  skillMd := some (strL "---\nname: B\ndescription: b\n---") }] }

/-- Witness for C1: with the same bundle name in two roots, the catalog has
exactly one entry for it, its path taken from the higher-priority root. -/
theorem findAllSkills_dedup_witness :
    (findAllSkillsKeyed (strL "/home/u") [dupRootA, dupRootB]).countP
      (fun p => p.1 = strL "dup") = 1 ∧
    ((findAllSkillsKeyed (strL "/home/u") [dupRootA, dupRootB]).find?
      (fun p => p.1 = strL "dup")).map (fun p => p.2.path) =
      some (strL "/proj/.agent/skills/dup") := by
  obtain ⟨r, info, hfind, hinfo, hpath, hcount, _⟩ :=
    findAllSkills_dedup (strL "/home/u") [dupRootA, dupRootB] (strL "dup")
      (by decide) (by decide)
  have hr : r = dupRootA := by
    have : [dupRootA, dupRootB].find? (fun r' => hasValidBundle r' (strL "dup")) =
        some dupRootA := by decide
    rw [this] at hfind
    exact (Option.some.injEq _ _ ▸ hfind.symm)
  subst hr
  refine ⟨hcount, ?_⟩
  rw [hinfo, Option.map_some', hpath]
  decide

/-! ## C3: the metadata extractor

Support lemmas about `takeWhile`/`dropWhile`, the substring search and the
backtracking passes, leading to the characterisation of
`extractYamlField`. -/

theorem takeWhile_all_append {α : Type} (p : α → Bool) (a b : List α)
    (h : ∀ x ∈ a, p x = true) :
    (a ++ b).takeWhile p = a ++ b.takeWhile p := by
  induction a with
  | nil => simp
  | cons c t ih =>
      have hc : p c = true := h c (by simp)
      simp only [List.cons_append, List.takeWhile_cons, hc, if_true]
      rw [ih (fun x hx => h x (by simp [hx]))]

theorem takeWhile_append_of_lt {α : Type} (p : α → Bool) (a b : List α)
    (h : (a.takeWhile p).length < a.length) :
    (a ++ b).takeWhile p = a.takeWhile p := by
  induction a with
  | nil => simp at h
  | cons c t ih =>
      by_cases hc : p c = true
      · simp only [List.cons_append, List.takeWhile_cons, hc, if_true]
        simp only [List.takeWhile_cons, hc, if_true] at h
        rw [ih (by simpa using h)]
      · have hc' : p c = false := Bool.eq_false_iff.mpr hc
        simp [List.takeWhile_cons, hc']

theorem dropWhile_eq_drop_len {α : Type} (p : α → Bool) (l : List α) :
    l.dropWhile p = l.drop ((l.takeWhile p).length) := by
  induction l with
  | nil => simp
  | cons c t ih =>
      by_cases hc : p c = true
      · simp [List.dropWhile_cons, List.takeWhile_cons, hc, ih]
      · have hc' : p c = false := Bool.eq_false_iff.mpr hc
        simp [List.dropWhile_cons, List.takeWhile_cons, hc']

theorem dropWhile_dropWhile {α : Type} (p : α → Bool) (l : List α) :
    (l.dropWhile p).dropWhile p = l.dropWhile p := by
  induction l with
  | nil => simp
  | cons c t ih =>
      by_cases hc : p c = true
      · simp [List.dropWhile_cons, hc, ih]
      · have hc' : p c = false := Bool.eq_false_iff.mpr hc
        simp [List.dropWhile_cons, hc']

/-- Dropping the leading whitespace run does not change the trimmed value. -/
theorem trimChars_drop_wsLen (l : Str) :
    trimChars (l.drop (wsLen l)) = trimChars l := by
  unfold trimChars wsLen
  rw [← dropWhile_eq_drop_len, dropWhile_dropWhile]

/-- A list with a non-whitespace element has its first one at index
`wsLen`. -/
theorem wsLen_first_nonWs (s : Str) (h : ∃ ch ∈ s, isWs ch = false) :
    wsLen s < s.length ∧
      ∃ ch, s.get? (wsLen s) = some ch ∧ isWs ch = false := by
  induction s with
  | nil => simp at h
  | cons c t ih =>
      by_cases hc : isWs c = true
      · obtain ⟨ch, hmem, hch⟩ := h
        have hcht : ch ∈ t := by
          rcases List.mem_cons.mp hmem with h1 | h1
          · subst h1; rw [hc] at hch; exact absurd hch (by simp)
          · exact h1
        obtain ⟨ih1, ch', hch', hws'⟩ := ih ⟨ch, hcht, hch⟩
        constructor
        · simp only [wsLen, List.takeWhile_cons, hc, if_true, List.length_cons]
          simpa [wsLen] using ih1
        · refine ⟨ch', ?_, hws'⟩
          simp only [wsLen, List.takeWhile_cons, hc, if_true, List.length_cons]
          simpa [wsLen] using hch'
      · have hc' : isWs c = false := Bool.eq_false_iff.mpr hc
        constructor
        · simp [wsLen, List.takeWhile_cons, hc']
        · exact ⟨c, by simp [wsLen, List.takeWhile_cons, hc'], hc'⟩

/-- A successful substring search decomposes the text. -/
theorem findSub_some (pat : Str) :
    ∀ s j, findSub pat s = some j → ∃ a b, s = a ++ pat ++ b ∧ a.length = j := by
  intro s
  induction s with
  | nil =>
      intro j h
      unfold findSub at h
      by_cases hp : pat.isPrefixOf ([] : Str) = true
      · rw [if_pos hp] at h
        have : pat = [] := by
          cases pat with
          | nil => rfl
          | cons c t => simp [List.isPrefixOf] at hp
        subst this
        exact ⟨[], [], by simp, by simpa using Option.some.inj h⟩
      · rw [if_neg hp] at h
        exact absurd h (by simp)
  | cons c rest ih =>
      intro j h
      unfold findSub at h
      by_cases hp : pat.isPrefixOf (c :: rest) = true
      · rw [if_pos hp] at h
        obtain ⟨b, hb⟩ := List.isPrefixOf_iff_prefix.mp hp
        exact ⟨[], b, by simp [hb.symm], by simpa using Option.some.inj h⟩
      · rw [if_neg hp] at h
        cases hrec : findSub pat rest with
        | none => rw [hrec] at h; exact absurd h (by simp)
        | some j' =>
            rw [hrec] at h
            obtain ⟨a, b, hab, hlen⟩ := ih j' hrec
            refine ⟨c :: a, b, by simp [hab], ?_⟩
            simp only [List.length_cons, hlen]
            simpa using Option.some.inj h

/-- A successful backtracking pass of the header regex yields the whitespace
length `k` it ended at and the closing-delimiter position. -/
theorem tryK_some (r : Str) :
    ∀ K y, tryK r K = some y →
      ∃ k, k ≤ K ∧ r.get? k = some '\n' ∧
        ∃ j, findSub (strL "\n---") (r.drop (k + 1)) = some j ∧
          y = (r.drop (k + 1)).take j := by
  intro K
  induction K with
  | zero =>
      intro y h
      unfold tryK at h
      by_cases hn : r.get? 0 = some '\n'
      · rw [if_pos hn] at h
        cases hf : findSub (strL "\n---") (r.drop 1) with
        | none => rw [hf] at h; exact absurd h (by simp)
        | some j =>
            rw [hf] at h
            simp only [Option.map_some'] at h
            exact ⟨0, le_refl 0, hn, j, hf, (Option.some.inj h).symm⟩
      · rw [if_neg hn] at h
        exact absurd h (by simp)
  | succ K ih =>
      intro y h
      unfold tryK at h
      by_cases hn : r.get? (K + 1) = some '\n'
      · rw [if_pos hn] at h
        cases hf : findSub (strL "\n---") (r.drop (K + 2)) with
        | none =>
            rw [hf] at h
            obtain ⟨k, hk, hkn, j, hj, hy⟩ := ih y h
            exact ⟨k, by omega, hkn, j, hj, hy⟩
        | some j =>
            rw [hf] at h
            exact ⟨K + 1, le_refl _, hn, j, hf, (Option.some.inj h).symm⟩
      · rw [if_neg hn] at h
        obtain ⟨k, hk, hkn, j, hj, hy⟩ := ih y h
        exact ⟨k, by omega, hkn, j, hj, hy⟩

/-- A prefix of the whitespace run is all whitespace. -/
theorem take_all_ws (r : Str) : ∀ k, k ≤ wsLen r → ∀ ch ∈ r.take k, isWs ch = true := by
  induction r with
  | nil => intro k _ ch hch; simp at hch
  | cons c t ih =>
      intro k hk ch hch
      cases k with
      | zero => simp at hch
      | succ k' =>
          by_cases hc : isWs c = true
          · simp only [wsLen, List.takeWhile_cons, hc, if_true, List.length_cons] at hk
            simp only [List.take_succ_cons] at hch
            rcases List.mem_cons.mp hch with h1 | h1
            · subst h1; exact hc
            · exact ih k' (by simpa [wsLen] using hk) ch h1
          · have hc' : isWs c = false := Bool.eq_false_iff.mpr hc
            simp [wsLen, List.takeWhile_cons, hc'] at hk

/-- The header predicate in the words of the amended claim: the text begins
with three dashes, optional whitespace and a newline, and the remainder
contains a newline immediately followed by three dashes. -/
def SpecHeaderP (c : Str) : Prop :=
  ∃ w rest, (∀ ch ∈ w, isWs ch = true) ∧
    c = strL "---" ++ w ++ '\n' :: rest ∧
    ∃ a b, rest = a ++ strL "\n---" ++ b

/-- The header predicate of C3 as stated: a first line of exactly three
dashes and a later line of exactly three dashes. -/
def specExactClosedHeader (c : Str) : Bool :=
  match linesOf c with
  | [] => false
  | l₀ :: rest => l₀ = strL "---" ∧ rest.any (fun l => l = strL "---")

/-- Counterexample to C3 as stated: in `---\nname: x\n---x` no line is
exactly three dashes except the opener (the "closing" line is `---x`), so
the claim requires an absent result, yet the extractor returns `x` — the
closing delimiter regex `\n---` only anchors the start of a line. -/
theorem extractYamlField_counterexample :
    extractYamlField (strL "---\nname: x\n---x") (strL "name") = some (strL "x") ∧
    specExactClosedHeader (strL "---\nname: x\n---x") = false := by
  constructor
  · decide
  · decide

theorem dropWhile_all_append {α : Type} (p : α → Bool) (a b : List α)
    (h : ∀ x ∈ a, p x = true) :
    (a ++ b).dropWhile p = b.dropWhile p := by
  induction a with
  | nil => simp
  | cons c t ih =>
      have hc : p c = true := h c (by simp)
      simp only [List.cons_append, List.dropWhile_cons, hc, if_true]
      exact ih (fun x hx => h x (by simp [hx]))

/-- The substring after the first colon on a line
(`fieldMatch[1]` relative to the split at the first `:`). -/
def afterFirstColon (l : Str) : Str := (l.dropWhile (· != ':')).drop 1

theorem afterFirstColon_eq (f l : Str) (hfc : ':' ∉ f)
    (hp : (f ++ [':']).isPrefixOf l = true) :
    afterFirstColon l = l.drop (f.length + 1) := by
  obtain ⟨tt, htt⟩ := List.isPrefixOf_iff_prefix.mp hp
  have hl : l = f ++ ':' :: tt := by
    rw [← htt]; simp
  subst hl
  unfold afterFirstColon
  rw [dropWhile_all_append _ f (':' :: tt)
    (fun x hx => by
      have : x ≠ ':' := fun hx' => hfc (hx' ▸ hx)
      simpa using this)]
  have hcolon : (':' :: tt).dropWhile (· != ':') = ':' :: tt := by
    simp [List.dropWhile_cons]
  rw [hcolon]
  have : (f ++ ':' :: tt).drop (f.length + 1) = tt := by
    have := List.drop_left (f ++ [':']) tt
    simpa using this
  rw [this]
  simp

/-- A pattern without newlines is a prefix of a text iff it is a prefix of
the text's first line. -/
theorem prefix_takeWhile_iff (pat : Str) (hp : ∀ ch ∈ pat, (ch != '\n') = true) :
    ∀ y : Str, pat.isPrefixOf y = pat.isPrefixOf (y.takeWhile (· != '\n')) := by
  induction pat with
  | nil => intro y; simp [List.isPrefixOf]
  | cons c p ih =>
      intro y
      cases y with
      | nil => simp
      | cons d y' =>
          have hc : (c != '\n') = true := hp c (by simp)
          by_cases hd : (d != '\n') = true
          · simp only [List.takeWhile_cons, hd, if_true, List.isPrefixOf_cons₂_self]
            simp only [List.isPrefixOf]
            rw [ih (fun ch hch => hp ch (by simp [hch])) y']
          · have hd' : d = '\n' := by simpa using hd
            subst hd'
            simp only [List.takeWhile_cons]
            simp only [List.isPrefixOf]
            have : (c == '\n') = false := by simpa using hc
            simp [this]

/-- `dropWhile (· != newline)` is empty or starts with the newline. -/
theorem dropWhile_nl_shape (y : Str) :
    y.dropWhile (· != '\n') = [] ∨ ∃ z, y.dropWhile (· != '\n') = '\n' :: z := by
  induction y with
  | nil => exact Or.inl rfl
  | cons c t ih =>
      by_cases hc : (c != '\n') = true
      · simpa [List.dropWhile_cons, hc] using ih
      · have hc' : c = '\n' := by simpa using hc
        subst hc'
        exact Or.inr ⟨t, by simp [List.dropWhile_cons]⟩

/-- When the greedy `\s*` stops at a non-newline character the `.+` capture
starts right there and runs to the end of the line. -/
theorem attemptK_hit (t : Str) (k : Nat) (ch : Char)
    (h : t.get? k = some ch) (hch : ch ≠ '\n') :
    attemptK t k = some ((t.drop k).takeWhile (· != '\n')) := by
  have h' : t[k]? = some ch := by simpa [← List.get?_eq_getElem?] using h
  cases k with
  | zero => simp [attemptK, h', hch]
  | succ k' => simp [attemptK, h', hch]

/-- The tail match at a field line whose same-line remainder contains a
non-whitespace character: the capture is that remainder minus its leading
whitespace. -/
theorem attemptVal_line (tail rest' : Str)
    (htail : ∀ x ∈ tail, (x != '\n') = true)
    (hnw : ∃ ch ∈ tail, isWs ch = false)
    (hrest : rest' = [] ∨ ∃ z, rest' = '\n' :: z) :
    attemptVal (tail ++ rest') = some (tail.drop (wsLen tail)) := by
  obtain ⟨hlt, ch₀, hch₀, hws₀⟩ := wsLen_first_nonWs tail hnw
  have hch₀mem : ch₀ ∈ tail := List.get?_mem hch₀
  have hch₀nl : ch₀ ≠ '\n' := by
    have := htail ch₀ hch₀mem
    simpa using this
  have hwslen : wsLen (tail ++ rest') = wsLen tail := by
    unfold wsLen
    rw [takeWhile_append_of_lt isWs tail rest' hlt]
  have hget : (tail ++ rest').get? (wsLen tail) = some ch₀ :=
    (List.get?_append hlt).trans hch₀
  unfold attemptVal
  rw [hwslen, attemptK_hit (tail ++ rest') (wsLen tail) ch₀ hget hch₀nl]
  have hdrop : (tail ++ rest').drop (wsLen tail) = tail.drop (wsLen tail) ++ rest' :=
    List.drop_append_of_le_length (by omega)
  rw [hdrop, takeWhile_all_append _ (tail.drop (wsLen tail)) rest'
    (fun x hx => htail x (List.drop_subset _ _ hx))]
  have hrest0 : rest'.takeWhile (· != '\n') = [] := by
    rcases hrest with h0 | ⟨z, hz⟩
    · simp [h0]
    · simp [hz, List.takeWhile_cons]
  rw [hrest0]
  simp

/-- The field search fails when no line of the body starts with `field:`. -/
theorem fieldSearch_none_of_no_line (f : Str)
    (hf : ∀ ch ∈ f, (ch != '\n') = true) :
    ∀ N y, y.length ≤ N → (∀ l ∈ linesOf y, (f ++ [':']).isPrefixOf l = false) →
      fieldSearch f y = none := by
  intro N
  induction N with
  | zero =>
      intro y hlen _
      have : y = [] := List.length_eq_zero.mp (by omega)
      subst this
      exact fieldSearch_nil f
  | succ N ih =>
      intro y hlen hno
      by_cases hy : y = []
      · subst hy; exact fieldSearch_nil f
      · rw [fieldSearch_cons f y hy]
        have hfc' : ∀ ch ∈ f ++ [':'], (ch != '\n') = true := by
          intro ch hch
          rcases List.mem_append.mp hch with h1 | h1
          · exact hf ch h1
          · simp only [List.mem_singleton] at h1
            subst h1; decide
        have hl₀ : (f ++ [':']).isPrefixOf (y.takeWhile (· != '\n')) = false := by
          apply hno
          rw [linesOf_cons y hy]
          simp
        have hpres : (f ++ [':']).isPrefixOf y = false := by
          rw [prefix_takeWhile_iff (f ++ [':']) hfc' y]
          exact hl₀
        rw [hpres]
        simp only [Bool.false_eq_true, if_false]
        apply ih (dropLine y) (by have := dropLine_length_lt y hy; omega)
        intro l hl
        apply hno
        rw [linesOf_cons y hy]
        simp [hl]

/-- The field search at the first line carrying the field, when that line
has a non-whitespace character after the colon. -/
theorem fieldSearch_first_line (f : Str)
    (hf : ∀ ch ∈ f, (ch != '\n') = true) :
    ∀ ls₁ y l ls₂, linesOf y = ls₁ ++ l :: ls₂ →
      (∀ l' ∈ ls₁, (f ++ [':']).isPrefixOf l' = false) →
      (f ++ [':']).isPrefixOf l = true →
      (∃ ch ∈ l.drop (f.length + 1), isWs ch = false) →
      fieldSearch f y =
        some ((l.drop (f.length + 1)).drop (wsLen (l.drop (f.length + 1)))) := by
  have hfc' : ∀ ch ∈ f ++ [':'], (ch != '\n') = true := by
    intro ch hch
    rcases List.mem_append.mp hch with h1 | h1
    · exact hf ch h1
    · simp only [List.mem_singleton] at h1
      subst h1; decide
  intro ls₁
  induction ls₁ with
  | nil =>
      intro y l ls₂ hlines hls₁ hpre hnw
      have hy : y ≠ [] := by
        intro h0
        rw [h0, linesOf_nil] at hlines
        exact absurd hlines (by simp)
      rw [linesOf_cons y hy] at hlines
      simp only [List.nil_append, List.cons.injEq] at hlines
      obtain ⟨hl, _⟩ := hlines
      have hpy : (f ++ [':']).isPrefixOf y = true := by
        rw [prefix_takeWhile_iff (f ++ [':']) hfc' y, hl]
        exact hpre
      rw [fieldSearch_cons f y hy, hpy]
      simp only [if_true]
      -- decompose the line and the remainder of the body
      obtain ⟨tt, htt⟩ := List.isPrefixOf_iff_prefix.mp hpre
      have htail : l.drop (f.length + 1) = tt := by
        rw [← htt]
        have := List.drop_left (f ++ [':']) tt
        simpa using this
      have hy_decomp : y = l ++ y.dropWhile (· != '\n') := by
        rw [← hl]
        exact (List.takeWhile_append_dropWhile _ _).symm
      have hydrop : y.drop (f.length + 1) = tt ++ y.dropWhile (· != '\n') := by
        conv_lhs => rw [hy_decomp, ← htt]
        rw [List.append_assoc]
        have := List.drop_left (f ++ [':']) (tt ++ y.dropWhile (· != '\n'))
        simpa using this
      have httnl : ∀ x ∈ tt, (x != '\n') = true := by
        intro x hx
        have hxl : x ∈ l := by
          rw [← htt]
          exact List.mem_append.mpr (Or.inr (by simp [hx]))
        rw [← hl] at hxl
        simpa using List.mem_takeWhile_imp (p := fun c => c != '\n') hxl
      rw [hydrop, attemptVal_line tt (y.dropWhile (· != '\n')) httnl
        (htail ▸ hnw) (dropWhile_nl_shape y)]
      rw [htail]
  | cons l₀ ls₁' ih =>
      intro y l ls₂ hlines hls₁ hpre hnw
      have hy : y ≠ [] := by
        intro h0
        rw [h0, linesOf_nil] at hlines
        exact absurd hlines (by simp)
      rw [linesOf_cons y hy] at hlines
      simp only [List.cons_append, List.cons.injEq] at hlines
      obtain ⟨hl₀, hrest⟩ := hlines
      have hp₀ : (f ++ [':']).isPrefixOf y = false := by
        rw [prefix_takeWhile_iff (f ++ [':']) hfc' y, hl₀]
        exact hls₁ l₀ (by simp)
      rw [fieldSearch_cons f y hy, hp₀]
      simp only [Bool.false_eq_true, if_false]
      exact ih (dropLine y) l ls₂ hrest (fun l' hl' => hls₁ l' (by simp [hl'])) hpre hnw

/-- **C3 (amended).** For every document text and field name (the name
having no newline or colon, as the two used by the source):
the extractor returns absent unless the text begins, at its very start,
with `---` followed by optional whitespace and a newline, the remainder
containing a newline immediately followed by `---` — matched non-greedily,
the closing `---` need only begin a line, not constitute it.  When such a
header exists and no line of its body starts with `<field>:`, the result is
absent.  When the first body line starting with `<field>:` has a
non-whitespace character after the colon before the line ends, the result
is exactly the substring after the first colon on that line, trimmed of
surrounding whitespace.  (When that first field line's remainder is all
whitespace, the `\s*` of the field regex can cross the line break and the
value may come from subsequent lines — hence the restriction.) -/
theorem extractYamlField_spec (c f : Str)
    (hf : ∀ ch ∈ f, (ch != '\n') = true) (hfc : ':' ∉ f) :
    (extractYamlField c f ≠ none → SpecHeaderP c) ∧
    (∀ y, frontmatterBody c = some y →
      ((∀ l ∈ linesOf y, (f ++ [':']).isPrefixOf l = false) →
        extractYamlField c f = none) ∧
      (∀ ls₁ l ls₂, linesOf y = ls₁ ++ l :: ls₂ →
        (∀ l' ∈ ls₁, (f ++ [':']).isPrefixOf l' = false) →
        (f ++ [':']).isPrefixOf l = true →
        (∃ ch ∈ l.drop (f.length + 1), isWs ch = false) →
        extractYamlField c f = some (trimChars (afterFirstColon l)))) := by
  constructor
  · intro hne
    unfold extractYamlField at hne
    cases hfm : frontmatterBody c with
    | none => rw [hfm] at hne; exact absurd rfl hne
    | some y =>
        unfold frontmatterBody at hfm
        by_cases hdash : (strL "---").isPrefixOf c = true
        · rw [if_pos hdash] at hfm
          obtain ⟨k, hk, hkn, j, hj, _⟩ := tryK_some (c.drop 3) (wsLen (c.drop 3)) y hfm
          refine ⟨(c.drop 3).take k, (c.drop 3).drop (k + 1),
            take_all_ws (c.drop 3) k hk, ?_, ?_⟩
          · have hget : (c.drop 3)[k]? = some '\n' := by
              simpa [List.get?_eq_getElem?] using hkn
            obtain ⟨hklt, hkel⟩ := List.getElem?_eq_some.mp hget
            have hdecomp : c.drop 3 =
                (c.drop 3).take k ++ '\n' :: (c.drop 3).drop (k + 1) := by
              conv_lhs => rw [← List.take_append_drop k (c.drop 3)]
              rw [List.drop_eq_getElem_cons hklt, hkel]
            have htake : c.take 3 = strL "---" := by
              have hp := List.isPrefixOf_iff_prefix.mp hdash
              have heq := List.prefix_iff_eq_take.mp hp
              have hlen : (strL "---").length = 3 := rfl
              rw [hlen] at heq
              exact heq.symm
            conv_lhs => rw [← List.take_append_drop 3 c, htake, hdecomp]
            simp [List.append_assoc]
          · obtain ⟨a, b, hab, _⟩ := findSub_some (strL "\n---") _ j hj
            exact ⟨a, b, by rw [hab, List.append_assoc]⟩
        · rw [if_neg hdash] at hfm
          exact absurd hfm (by simp)
  · intro y hfm
    constructor
    · intro hno
      unfold extractYamlField
      rw [hfm]
      have := fieldSearch_none_of_no_line f hf y.length y (le_refl _) hno
      simp [this]
    · intro ls₁ l ls₂ hlines hls₁ hpre hnw
      unfold extractYamlField
      rw [hfm]
      have hval := fieldSearch_first_line f hf ls₁ y l ls₂ hlines hls₁ hpre hnw
      simp only [Option.bind_eq_bind, Option.some_bind, hval, Option.map_some']
      rw [afterFirstColon_eq f l hfc hpre, trimChars_drop_wsLen]

/-- Witness for C3 (amended) at a concrete document: the field line
`name: x` inside a well-formed header extracts to `x` (the substring after
the first colon, trimmed), and a body with no `name:` line gives absent. -/
theorem extractYamlField_spec_witness :
    extractYamlField (strL "---\nname: x\n---\nbody") (strL "name") =
      some (trimChars (afterFirstColon (strL "name: x"))) ∧
    extractYamlField (strL "---\nother: q\n---") (strL "name") = none := by
  have h1 := (extractYamlField_spec (strL "---\nname: x\n---\nbody") (strL "name")
    (by decide) (by decide)).2 (strL "name: x") (by decide)
  have h2 := (extractYamlField_spec (strL "---\nother: q\n---") (strL "name")
    (by decide) (by decide)).2 (strL "other: q") (by decide)
  constructor
  · exact h1.2 [] (strL "name: x") [] (by decide) (by simp) (by decide) (by decide)
  · exact h2.1 (by decide)

/-! ## C10: whitespace-only field values -/

/-- Counterexample to C10 as stated: in
`---\ndescription:   \nfoo\n---` the header contains a field line
(`description:   `) whose text after the colon is only whitespace, yet the
extracted value is `foo` — the `\s*` of the field regex crosses the line
break — so the value does not trim to the empty string and the
single-directory gate does not exclude the bundle. -/
theorem emptyish_field_counterexample :
    extractYamlField (strL "---\ndescription:   \nfoo\n---") (strL "description") =
      some (strL "foo") ∧
    dirVariantAccepts (strL "---\ndescription:   \nfoo\n---") = true := by
  constructor
  · decide
  · decide

theorem takeWhile_eq_self_of_all {α : Type} (p : α → Bool) (l : List α)
    (h : ∀ x ∈ l, p x = true) : l.takeWhile p = l := by
  induction l with
  | nil => rfl
  | cons c t ih =>
      have hc := h c (by simp)
      simp only [List.takeWhile_cons, hc, if_true]
      rw [ih (fun x hx => h x (by simp [hx]))]

theorem dropWhile_eq_nil_of_all {α : Type} (p : α → Bool) (l : List α)
    (h : ∀ x ∈ l, p x = true) : l.dropWhile p = [] := by
  induction l with
  | nil => rfl
  | cons c t ih =>
      have hc := h c (by simp)
      simp only [List.dropWhile_cons, hc, if_true]
      exact ih (fun x hx => h x (by simp [hx]))

/-- An all-whitespace string trims to the empty string. -/
theorem trimChars_of_all_ws (g : Str) (h : ∀ x ∈ g, isWs x = true) :
    trimChars g = [] := by
  unfold trimChars
  rw [dropWhile_eq_nil_of_all isWs g h]
  rfl

/-- The backtracking tail match on an all-whitespace remainder that holds a
non-newline character: some whitespace run is captured. -/
theorem attemptK_allws (t : Str) (hws : ∀ x ∈ t, isWs x = true) :
    ∀ K, (∃ k, k ≤ K ∧ ∃ ch, t.get? k = some ch ∧ ch ≠ '\n') →
      ∃ g, attemptK t K = some g ∧ ∀ x ∈ g, isWs x = true := by
  intro K
  induction K with
  | zero =>
      rintro ⟨k, hk, ch, hch, hchn⟩
      have hk0 : k = 0 := by omega
      subst hk0
      have hch2 : t[0]? = some ch := by simpa [← List.get?_eq_getElem?] using hch
      refine ⟨t.takeWhile (· != '\n'), by simp [attemptK, hch2, hchn], ?_⟩
      intro x hx
      exact hws x ((List.takeWhile_prefix _).subset hx)
  | succ K ih =>
      rintro ⟨k, hk, ch, hch, hchn⟩
      cases hget : t.get? (K + 1) with
      | none =>
          have hget2 : t[K + 1]? = none := by
            simpa [← List.get?_eq_getElem?] using hget
          have hkK : k ≤ K := by
            rcases Nat.lt_or_ge k (K + 1) with h1 | h1
            · omega
            · have : k = K + 1 := by omega
              subst this
              rw [hget] at hch
              exact absurd hch (by simp)
          obtain ⟨g, hg, hgws⟩ := ih ⟨k, hkK, ch, hch, hchn⟩
          refine ⟨g, ?_, hgws⟩
          have hunfold : attemptK t (K + 1) = attemptK t K := by
            conv_lhs => rw [attemptK]
            rw [hget]
          rw [hunfold]
          exact hg
      | some ch' =>
          have hget2 : t[K + 1]? = some ch' := by
            simpa [← List.get?_eq_getElem?] using hget
          by_cases hch' : ch' = '\n'
          · subst hch'
            have hkK : k ≤ K := by
              rcases Nat.lt_or_ge k (K + 1) with h1 | h1
              · omega
              · have : k = K + 1 := by omega
                subst this
                rw [hget] at hch
                have := Option.some.inj hch
                exact absurd this.symm hchn
            obtain ⟨g, hg, hgws⟩ := ih ⟨k, hkK, ch, hch, hchn⟩
            refine ⟨g, ?_, hgws⟩
            have hunfold : attemptK t (K + 1) = attemptK t K := by
              conv_lhs => rw [attemptK]
              rw [hget]
              simp
            rw [hunfold]
            exact hg
          · have hunfold : attemptK t (K + 1) =
                some ((t.drop (K + 1)).takeWhile (· != '\n')) := by
              conv_lhs => rw [attemptK]
              rw [hget]
              simp [hch']
            refine ⟨(t.drop (K + 1)).takeWhile (· != '\n'), hunfold, ?_⟩
            intro x hx
            exact hws x (List.drop_subset _ _ ((List.takeWhile_prefix _).subset hx))

/-- A text all of whose lines are whitespace is itself all whitespace. -/
theorem allws_of_lines : ∀ N (z : Str), z.length ≤ N →
    (∀ l' ∈ linesOf z, ∀ x ∈ l', isWs x = true) → ∀ x ∈ z, isWs x = true := by
  intro N
  induction N with
  | zero =>
      intro z hlen _ x hx
      have : z = [] := List.length_eq_zero.mp (by omega)
      subst this
      simp at hx
  | succ N ih =>
      intro z hlen hl x hx
      by_cases hz : z = []
      · subst hz; simp at hx
      · have hsplit := List.takeWhile_append_dropWhile (p := (· != '\n')) (l := z)
        rw [← hsplit] at hx
        rcases List.mem_append.mp hx with h1 | h1
        · exact hl (z.takeWhile (· != '\n')) (by rw [linesOf_cons z hz]; simp) x h1
        · rcases dropWhile_nl_shape z with h0 | ⟨w, hw⟩
          · rw [h0] at h1; simp at h1
          · rw [hw] at h1
            rcases List.mem_cons.mp h1 with h2 | h2
            · subst h2; decide
            · have hwz : w = dropLine z := by
                unfold dropLine
                rw [hw]
                simp
              rw [hwz] at h2
              refine ih (dropLine z) (by have := dropLine_length_lt z hz; omega) ?_ x h2
              intro l' hl' x' hx'
              exact hl l' (by rw [linesOf_cons z hz]; simp [hl']) x' hx'

/-- The field search at the first field line when the line's remainder and
everything after it are whitespace: a whitespace capture results. -/
theorem fieldSearch_first_line_ws (f : Str)
    (hf : ∀ ch ∈ f, (ch != '\n') = true) :
    ∀ ls₁ (y l : Str) (ls₂ : List Str), linesOf y = ls₁ ++ l :: ls₂ →
      (∀ l' ∈ ls₁, (f ++ [':']).isPrefixOf l' = false) →
      (f ++ [':']).isPrefixOf l = true →
      l.drop (f.length + 1) ≠ [] →
      (∀ x ∈ l.drop (f.length + 1), isWs x = true) →
      (∀ l' ∈ ls₂, ∀ x ∈ l', isWs x = true) →
      ∃ g, fieldSearch f y = some g ∧ ∀ x ∈ g, isWs x = true := by
  have hfc' : ∀ ch ∈ f ++ [':'], (ch != '\n') = true := by
    intro ch hch
    rcases List.mem_append.mp hch with h1 | h1
    · exact hf ch h1
    · simp only [List.mem_singleton] at h1
      subst h1; decide
  intro ls₁
  induction ls₁ with
  | nil =>
      intro y l ls₂ hlines hls₁ hpre hne hws hafter
      have hy : y ≠ [] := by
        intro h0
        rw [h0, linesOf_nil] at hlines
        exact absurd hlines (by simp)
      rw [linesOf_cons y hy] at hlines
      simp only [List.nil_append, List.cons.injEq] at hlines
      obtain ⟨hl, hls₂⟩ := hlines
      have hpy : (f ++ [':']).isPrefixOf y = true := by
        rw [prefix_takeWhile_iff (f ++ [':']) hfc' y, hl]
        exact hpre
      obtain ⟨tt, htt⟩ := List.isPrefixOf_iff_prefix.mp hpre
      have htail : l.drop (f.length + 1) = tt := by
        rw [← htt]
        have := List.drop_left (f ++ [':']) tt
        simpa using this
      have hy_decomp : y = l ++ y.dropWhile (· != '\n') := by
        rw [← hl]
        exact (List.takeWhile_append_dropWhile _ _).symm
      have hydrop : y.drop (f.length + 1) = tt ++ y.dropWhile (· != '\n') := by
        conv_lhs => rw [hy_decomp, ← htt]
        rw [List.append_assoc]
        have := List.drop_left (f ++ [':']) (tt ++ y.dropWhile (· != '\n'))
        simpa using this
      -- the whole remainder after the colon is whitespace
      have hrest_ws : ∀ x ∈ y.dropWhile (· != '\n'), isWs x = true := by
        rcases dropWhile_nl_shape y with h0 | ⟨w, hw⟩
        · rw [h0]; simp
        · rw [hw]
          intro x hx
          rcases List.mem_cons.mp hx with h2 | h2
          · subst h2; decide
          · have hwz : w = dropLine y := by
              unfold dropLine
              rw [hw]
              simp
            rw [hwz] at h2
            refine allws_of_lines (dropLine y).length (dropLine y) (le_refl _) ?_ x h2
            rw [hls₂]
            exact hafter
      have ht_ws : ∀ x ∈ y.drop (f.length + 1), isWs x = true := by
        rw [hydrop]
        intro x hx
        rcases List.mem_append.mp hx with h1 | h1
        · exact hws x (htail ▸ h1)
        · exact hrest_ws x h1
      -- a non-newline character exists: the head of the nonempty line tail
      have hnn : ∃ k, k ≤ wsLen (y.drop (f.length + 1)) ∧
          ∃ ch, (y.drop (f.length + 1)).get? k = some ch ∧ ch ≠ '\n' := by
        obtain ⟨ch₀, hch₀⟩ : ∃ ch₀, tt.get? 0 = some ch₀ := by
          cases htt0 : tt with
          | nil => exact absurd (htt0 ▸ htail) hne
          | cons a b => exact ⟨a, by simp [htt0]⟩
        have hch₀mem : ch₀ ∈ tt := List.get?_mem hch₀
        have hch₀l : ch₀ ∈ l := by
          rw [← htt]
          exact List.mem_append.mpr (Or.inr (by simp [hch₀mem]))
        have hch₀nl : ch₀ ≠ '\n' := by
          rw [← hl] at hch₀l
          simpa using List.mem_takeWhile_imp (p := fun c => c != '\n') hch₀l
        refine ⟨0, ?_, ch₀, ?_, hch₀nl⟩
        · omega
        · rw [hydrop]
          cases htt0 : tt with
          | nil => rw [htt0] at hch₀; simp at hch₀
          | cons a b =>
              rw [htt0] at hch₀
              simp only [List.get?] at hch₀
              simp [htt0, List.get?, hch₀]
      rw [fieldSearch_cons f y hy, hpy]
      simp only [if_true]
      have hwsl : wsLen (y.drop (f.length + 1)) = (y.drop (f.length + 1)).length := by
        unfold wsLen
        rw [takeWhile_eq_self_of_all isWs _ ht_ws]
      obtain ⟨g, hg, hgws⟩ := attemptK_allws (y.drop (f.length + 1)) ht_ws
        (wsLen (y.drop (f.length + 1))) hnn
      unfold attemptVal
      rw [hg]
      exact ⟨g, rfl, hgws⟩
  | cons l₀ ls₁' ih =>
      intro y l ls₂ hlines hls₁ hpre hne hws hafter
      have hy : y ≠ [] := by
        intro h0
        rw [h0, linesOf_nil] at hlines
        exact absurd hlines (by simp)
      rw [linesOf_cons y hy] at hlines
      simp only [List.cons_append, List.cons.injEq] at hlines
      obtain ⟨hl₀, hrest⟩ := hlines
      have hp₀ : (f ++ [':']).isPrefixOf y = false := by
        rw [prefix_takeWhile_iff (f ++ [':']) hfc' y, hl₀]
        exact hls₁ l₀ (by simp)
      rw [fieldSearch_cons f y hy, hp₀]
      simp only [Bool.false_eq_true, if_false]
      exact ih (dropLine y) l ls₂ hrest (fun l' hl' => hls₁ l' (by simp [hl'])) hpre
        hne hws hafter

/-- **C10 (amended).** For every bundle document whose header body's first
line starting with `<field>:` has a nonempty, whitespace-only remainder
after the colon and is followed only by whitespace up to the end of the
header body, the extracted value trims to the empty string and the catalog
build treats it exactly like an absent field: with field `name` the display
name falls back to the directory name, with field `description` the
description falls back to the empty string and the single-directory variant
excludes the bundle through its non-empty-description gate.  (The original
claim omitted "first", "nonempty" and "followed only by whitespace"; without
them the `\s*` of the field regex can cross the line break and pick up a
value from a later line — see the counterexample.) -/
theorem emptyish_field_treated_absent (content f d : Str)
    (hf : ∀ ch ∈ f, (ch != '\n') = true)
    (y : Str) (hfm : frontmatterBody content = some y)
    (ls₁ : List Str) (l : Str) (ls₂ : List Str)
    (hlines : linesOf y = ls₁ ++ l :: ls₂)
    (hls₁ : ∀ l' ∈ ls₁, (f ++ [':']).isPrefixOf l' = false)
    (hpre : (f ++ [':']).isPrefixOf l = true)
    (hne : l.drop (f.length + 1) ≠ [])
    (hws : ∀ x ∈ l.drop (f.length + 1), isWs x = true)
    (hafter : ∀ l' ∈ ls₂, ∀ x ∈ l', isWs x = true) :
    extractYamlField content f = some [] ∧
    orElseStr (extractYamlField content f) d = d ∧
    (f = strL "name" → displayNameOf content d = d) ∧
    (f = strL "description" → descriptionOf content = [] ∧
      dirVariantAccepts content = false) := by
  obtain ⟨g, hg, hgws⟩ := fieldSearch_first_line_ws f hf ls₁ y l ls₂ hlines hls₁
    hpre hne hws hafter
  have hex : extractYamlField content f = some [] := by
    unfold extractYamlField
    rw [hfm]
    simp only [Option.bind_eq_bind, Option.some_bind, hg, Option.map_some']
    rw [trimChars_of_all_ws g hgws]
  refine ⟨hex, by simp [orElseStr, hex], ?_, ?_⟩
  · intro hfname
    subst hfname
    unfold displayNameOf
    rw [hex]
    simp [orElseStr]
  · intro hfdesc
    subst hfdesc
    constructor
    · unfold descriptionOf
      rw [hex]
      rfl
    · unfold dirVariantAccepts
      rw [hex]
      simp [trimChars]

/-- Witness for C10 at a concrete bundle document whose description line
holds only whitespace after the colon: the value extracts to the empty
string, the display name falls back, and the single-directory gate excludes
the bundle. -/
theorem emptyish_field_treated_absent_witness :
    extractYamlField (strL "---\ndescription:   \n---") (strL "description") =
      some [] ∧
    descriptionOf (strL "---\ndescription:   \n---") = [] ∧
    dirVariantAccepts (strL "---\ndescription:   \n---") = false ∧
    displayNameOf (strL "---\nname: \n---") (strL "dirname") = strL "dirname" := by
  have h1 := emptyish_field_treated_absent (strL "---\ndescription:   \n---")
    (strL "description") (strL "dirname") (by decide) (strL "description:   ")
    (by decide) [] (strL "description:   ") [] (by decide) (by simp) (by decide)
    (by decide) (by decide) (by simp)
  have h2 := emptyish_field_treated_absent (strL "---\nname: \n---")
    (strL "name") (strL "dirname") (by decide) (strL "name: ")
    (by decide) [] (strL "name: ") [] (by decide) (by simp) (by decide)
    (by decide) (by decide) (by simp)
  exact ⟨h1.1, (h1.2.2.2 rfl).1, (h1.2.2.2 rfl).2, h2.2.2.1 rfl⟩

/-! ## C7: load record store round-trip -/

theorem expectPre_append (pat x : Str) : expectPre pat (pat ++ x) = some x := by
  unfold expectPre
  rw [if_pos (List.isPrefixOf_iff_prefix.mpr ⟨x, rfl⟩)]
  rw [List.drop_left]

theorem digitChar_toNat (d : Nat) (h : d < 10) : (digitChar d).toNat - 48 = d := by
  interval_cases d <;> decide

theorem digitChar_isDigit (d : Nat) (h : d < 10) : isDigitCh (digitChar d) = true := by
  interval_cases d <;> decide

theorem natDigits_all_digits : ∀ n, ∀ c ∈ natDigits n, isDigitCh c = true := by
  intro n
  induction n using Nat.strong_induction_on with
  | _ n ih =>
      intro c hc
      rw [natDigits] at hc
      by_cases h : n < 10
      · rw [dif_pos h] at hc
        simp only [List.mem_singleton] at hc
        subst hc
        exact digitChar_isDigit n h
      · rw [dif_neg h] at hc
        rcases List.mem_append.mp hc with h1 | h1
        · exact ih (n / 10) (Nat.div_lt_self (by omega) (by omega)) c h1
        · simp only [List.mem_singleton] at h1
          subst h1
          exact digitChar_isDigit (n % 10) (Nat.mod_lt _ (by omega))

theorem natDigits_ne_nil (n : Nat) : natDigits n ≠ [] := by
  rw [natDigits]
  by_cases h : n < 10
  · rw [dif_pos h]; simp
  · rw [dif_neg h]; simp

theorem natOfDigits_natDigits : ∀ n, natOfDigits (natDigits n) = n := by
  intro n
  induction n using Nat.strong_induction_on with
  | _ n ih =>
      rw [natDigits]
      by_cases h : n < 10
      · rw [dif_pos h]
        simp only [natOfDigits, List.foldl_cons, List.foldl_nil]
        rw [digitChar_toNat n h]
        omega
      · rw [dif_neg h]
        have hstep : natOfDigits (natDigits (n / 10) ++ [digitChar (n % 10)]) =
            natOfDigits (natDigits (n / 10)) * 10 + ((digitChar (n % 10)).toNat - 48) := by
          simp [natOfDigits, List.foldl_append]
        rw [hstep, ih (n / 10) (Nat.div_lt_self (by omega) (by omega)),
          digitChar_toNat (n % 10) (Nat.mod_lt _ (by omega))]
        omega

theorem parseNat_render (n : Nat) (z : Str)
    (hz : z = [] ∨ ∃ c z', z = c :: z' ∧ isDigitCh c = false) :
    parseNat (natDigits n ++ z) = some (n, z) := by
  have htw : z.takeWhile isDigitCh = [] := by
    rcases hz with h0 | ⟨c, z', hcz, hc⟩
    · simp [h0]
    · simp [hcz, List.takeWhile_cons, hc]
  have hdw : z.dropWhile isDigitCh = z := by
    rcases hz with h0 | ⟨c, z', hcz, hc⟩
    · simp [h0]
    · simp [hcz, List.dropWhile_cons, hc]
  unfold parseNat
  rw [takeWhile_all_append isDigitCh _ z (natDigits_all_digits n), htw,
    dropWhile_all_append isDigitCh _ z (natDigits_all_digits n), hdw]
  simp only [List.append_nil]
  rw [if_neg (natDigits_ne_nil n), natOfDigits_natDigits]

theorem hexVal_hexDigitL (d : Nat) (h : d < 16) :
    hexVal (escChar.hexDigitL d) = some d := by
  interval_cases d <;> decide

theorem psb_quote (r : Str) : parseStringBody ('"' :: r) = some ([], r) := by
  rw [parseStringBody.eq_def]
  simp

theorem psb_esc_quote (x : Str) :
    parseStringBody ('\\' :: '"' :: x) =
      (parseStringBody x).map (fun p => ('"' :: p.1, p.2)) := by
  rw [parseStringBody.eq_def]
  simp

theorem psb_esc_backslash (x : Str) :
    parseStringBody ('\\' :: '\\' :: x) =
      (parseStringBody x).map (fun p => ('\\' :: p.1, p.2)) := by
  rw [parseStringBody.eq_def]
  simp

theorem psb_esc_b (x : Str) :
    parseStringBody ('\\' :: 'b' :: x) =
      (parseStringBody x).map (fun p => ('\x08' :: p.1, p.2)) := by
  rw [parseStringBody.eq_def]
  simp

theorem psb_esc_f (x : Str) :
    parseStringBody ('\\' :: 'f' :: x) =
      (parseStringBody x).map (fun p => ('\x0c' :: p.1, p.2)) := by
  rw [parseStringBody.eq_def]
  simp

theorem psb_esc_n (x : Str) :
    parseStringBody ('\\' :: 'n' :: x) =
      (parseStringBody x).map (fun p => ('\n' :: p.1, p.2)) := by
  rw [parseStringBody.eq_def]
  simp

theorem psb_esc_r (x : Str) :
    parseStringBody ('\\' :: 'r' :: x) =
      (parseStringBody x).map (fun p => ('\r' :: p.1, p.2)) := by
  rw [parseStringBody.eq_def]
  simp

theorem psb_esc_t (x : Str) :
    parseStringBody ('\\' :: 't' :: x) =
      (parseStringBody x).map (fun p => ('\t' :: p.1, p.2)) := by
  rw [parseStringBody.eq_def]
  simp

theorem psb_esc_u (a b c d : Char) (x : Str) (v1 v2 v3 v4 : Nat)
    (h1 : hexVal a = some v1) (h2 : hexVal b = some v2)
    (h3 : hexVal c = some v3) (h4 : hexVal d = some v4) :
    parseStringBody ('\\' :: 'u' :: a :: b :: c :: d :: x) =
      (parseStringBody x).map
        (fun p => (Char.ofNat (4096 * v1 + 256 * v2 + 16 * v3 + v4) :: p.1, p.2)) := by
  rw [parseStringBody.eq_def]
  simp [h1, h2, h3, h4]

theorem psb_other (c : Char) (x : Str) (h1 : c ≠ '"') (h2 : c ≠ '\\') :
    parseStringBody (c :: x) =
      (parseStringBody x).map (fun p => (c :: p.1, p.2)) := by
  rw [parseStringBody.eq_def]
  simp [h1, h2]

/-- Decoding inverts the escaping `JSON.stringify` performs on a string. -/
theorem parseStringBody_escape : ∀ s r, parseStringBody (escStr s ++ '"' :: r) = some (s, r) := by
  intro s
  induction s with
  | nil =>
      intro r
      show parseStringBody ('"' :: r) = some ([], r)
      exact psb_quote r
  | cons c s' ih =>
      intro r
      have hesc : escStr (c :: s') = escChar c ++ escStr s' := by
        simp [escStr]
      rw [hesc, List.append_assoc]
      unfold escChar
      by_cases h1 : c = '"'
      · subst h1
        rw [if_pos rfl]
        show parseStringBody ('\\' :: '"' :: (escStr s' ++ '"' :: r)) = _
        rw [psb_esc_quote, ih r]
        rfl
      · rw [if_neg h1]
        by_cases h2 : c = '\\'
        · subst h2
          rw [if_pos rfl]
          show parseStringBody ('\\' :: '\\' :: (escStr s' ++ '"' :: r)) = _
          rw [psb_esc_backslash, ih r]
          rfl
        · rw [if_neg h2]
          by_cases h3 : c = '\x08'
          · subst h3
            rw [if_pos rfl]
            show parseStringBody ('\\' :: 'b' :: (escStr s' ++ '"' :: r)) = _
            rw [psb_esc_b, ih r]
            rfl
          · rw [if_neg h3]
            by_cases h4 : c = '\x0c'
            · subst h4
              rw [if_pos rfl]
              show parseStringBody ('\\' :: 'f' :: (escStr s' ++ '"' :: r)) = _
              rw [psb_esc_f, ih r]
              rfl
            · rw [if_neg h4]
              by_cases h5 : c = '\n'
              · subst h5
                rw [if_pos rfl]
                show parseStringBody ('\\' :: 'n' :: (escStr s' ++ '"' :: r)) = _
                rw [psb_esc_n, ih r]
                rfl
              · rw [if_neg h5]
                by_cases h6 : c = '\r'
                · subst h6
                  rw [if_pos rfl]
                  show parseStringBody ('\\' :: 'r' :: (escStr s' ++ '"' :: r)) = _
                  rw [psb_esc_r, ih r]
                  rfl
                · rw [if_neg h6]
                  by_cases h7 : c = '\t'
                  · subst h7
                    rw [if_pos rfl]
                    show parseStringBody ('\\' :: 't' :: (escStr s' ++ '"' :: r)) = _
                    rw [psb_esc_t, ih r]
                    rfl
                  · rw [if_neg h7]
                    by_cases h8 : c.toNat < 32
                    · rw [if_pos h8]
                      show parseStringBody ('\\' :: 'u' :: '0' :: '0' ::
                        escChar.hexDigitL (c.toNat / 16) ::
                        escChar.hexDigitL (c.toNat % 16) ::
                        (escStr s' ++ '"' :: r)) = _
                      rw [psb_esc_u '0' '0' (escChar.hexDigitL (c.toNat / 16))
                        (escChar.hexDigitL (c.toNat % 16)) _ 0 0 (c.toNat / 16)
                        (c.toNat % 16) (by decide) (by decide)
                        (hexVal_hexDigitL _ (by omega))
                        (hexVal_hexDigitL _ (Nat.mod_lt _ (by omega))), ih r]
                      simp only [Option.map_some']
                      rw [show 4096 * 0 + 256 * 0 + 16 * (c.toNat / 16) + c.toNat % 16 =
                          c.toNat from by omega, Char.ofNat_toNat]
                    · rw [if_neg h8]
                      show parseStringBody (c :: (escStr s' ++ '"' :: r)) = _
                      rw [psb_other c _ h1 h2, ih r]
                      rfl

/-- Rewriting `renderEntryVal` into the shape the strict parser consumes. -/
theorem renderEntryVal_append (v : CacheEntry) (X : Str) :
    renderEntryVal v ++ X =
      strL "\x7b\n    \"name\": \"" ++ (escStr v.name ++ '"' ::
        (strL ",\n    \"baseDir\": \"" ++ (escStr v.baseDir ++ '"' ::
          (strL ",\n    \"loadedAt\": " ++
            (natDigits v.loadedAt ++ (strL "\n  \x7d" ++ X)))))) := by
  unfold renderEntryVal renderString
  rw [show strL "\x7b\n    \"name\": \"" = strL "\x7b\n    \"name\": " ++ ['"'] from rfl,
    show strL ",\n    \"baseDir\": \"" = strL ",\n    \"baseDir\": " ++ ['"'] from rfl]
  simp [List.append_assoc]

theorem parseEntryVal_render (v : CacheEntry) (rest : Str) :
    parseEntryVal (renderEntryVal v ++ rest) = some (v, rest) := by
  rw [renderEntryVal_append]
  unfold parseEntryVal
  rw [expectPre_append, Option.some_bind, parseStringBody_escape, Option.some_bind,
    expectPre_append, Option.some_bind, parseStringBody_escape, Option.some_bind,
    expectPre_append, Option.some_bind,
    parseNat_render v.loadedAt (strL "\n  \x7d" ++ rest)
      (Or.inr ⟨'\n', strL "  \x7d" ++ rest, rfl, by decide⟩), Option.some_bind,
    expectPre_append]
  rfl

/-- Rewriting `renderPair` into the shape the strict parser consumes. -/
theorem renderPair_append (k : Str) (v : CacheEntry) (X : Str) :
    renderPair k v ++ X =
      strL "  \"" ++ (escStr k ++ '"' :: (strL ": " ++ (renderEntryVal v ++ X))) := by
  unfold renderPair renderString
  rw [show strL "  \"" = strL "  " ++ ['"'] from rfl]
  simp [List.append_assoc]

theorem parseEntriesLoop_render :
    ∀ (m : List (Str × CacheEntry)) (k : Str) (v : CacheEntry) (fuel : Nat) (rest : Str),
      m.length < fuel →
      parseEntriesLoop fuel (renderEntries ((k, v) :: m) ++ '\n' :: '}' :: rest) =
        some ((k, v) :: m, rest) := by
  intro m
  induction m with
  | nil =>
      intro k v fuel rest hfuel
      obtain ⟨f, rfl⟩ : ∃ f, fuel = f + 1 := ⟨fuel - 1, by omega⟩
      show parseEntriesLoop (f + 1) (renderPair k v ++ '\n' :: '}' :: rest) = _
      rw [renderPair_append]
      unfold parseEntriesLoop
      rw [expectPre_append, Option.some_bind, parseStringBody_escape, Option.some_bind,
        expectPre_append, Option.some_bind, parseEntryVal_render]
      rfl
  | cons p m' ih =>
      intro k v fuel rest hfuel
      obtain ⟨f, rfl⟩ : ∃ f, fuel = f + 1 := ⟨fuel - 1, by omega⟩
      obtain ⟨k₂, v₂⟩ := p
      show parseEntriesLoop (f + 1)
        ((renderPair k v ++ strL ",\n" ++ renderEntries ((k₂, v₂) :: m')) ++
          '\n' :: '}' :: rest) = _
      rw [List.append_assoc, List.append_assoc, renderPair_append]
      unfold parseEntriesLoop
      rw [expectPre_append, Option.some_bind, parseStringBody_escape, Option.some_bind,
        expectPre_append, Option.some_bind, parseEntryVal_render]
      have hm' : m'.length < f := by simpa using hfuel
      have hrec := ih k₂ v₂ f rest hm'
      show (parseEntriesLoop f (renderEntries ((k₂, v₂) :: m') ++ '\n' :: '}' :: rest)).map
          (fun pl => ((k, v) :: pl.1, pl.2)) =
        some ((k, v) :: (k₂, v₂) :: m', rest)
      rw [hrec]
      rfl

theorem renderEntries_length (m : List (Str × CacheEntry)) :
    m.length ≤ (renderEntries m).length := by
  induction m with
  | nil => simp [renderEntries]
  | cons p m' ih =>
      obtain ⟨k, v⟩ := p
      have hp : 1 ≤ (renderPair k v).length := by
        unfold renderPair
        rw [show strL "  " = ' ' :: ' ' :: ([] : Str) from rfl]
        simp only [List.cons_append, List.length_append, List.length_cons]
        omega
      cases m' with
      | nil =>
          show ((k, v) :: []).length ≤ (renderPair k v).length
          simpa using hp
      | cons q m'' =>
          show ((k, v) :: q :: m'').length ≤
            (renderPair k v ++ strL ",\n" ++ renderEntries (q :: m'')).length
          simp only [List.length_append, List.length_cons]
          simp only [List.length_cons] at ih
          omega

/-- The full serialisation round-trip of the load record store. -/
theorem parseCache_stringify (m : List (Str × CacheEntry)) :
    parseCache (stringifyCache m) = some m := by
  cases m with
  | nil => decide
  | cons p m' =>
      obtain ⟨k, v⟩ := p
      have hs : stringifyCache ((k, v) :: m') =
          '{' :: '\n' :: (renderEntries ((k, v) :: m') ++ '\n' :: '}' :: []) := by
        unfold stringifyCache
        rw [if_neg (by simp)]
        rw [show strL "\n\x7d" = '\n' :: '}' :: [] from rfl,
          show strL "\x7b\n" = '{' :: '\n' :: ([] : Str) from rfl]
        simp
      rw [hs]
      unfold parseCache
      rw [if_neg (by simp [strL])]
      have hfuel : m'.length <
          (renderEntries ((k, v) :: m') ++ '\n' :: '}' :: []).length + 1 := by
        have h1 := renderEntries_length ((k, v) :: m')
        simp only [List.length_cons] at h1
        simp only [List.length_append]
        omega
      show (match parseEntriesLoop
          ((renderEntries ((k, v) :: m') ++ '\n' :: '}' :: []).length + 1)
          (renderEntries ((k, v) :: m') ++ '\n' :: '}' :: []) with
        | some (mm, rest) => if rest = [] then some mm else none
        | none => none) = some ((k, v) :: m')
      rw [parseEntriesLoop_render m' k v _ [] hfuel]
      rfl

instance : Inhabited CacheEntry := ⟨⟨[], [], 0⟩⟩

/-- The first entry for a key after a `Map.set` upsert. -/
theorem find?_mapSet (m : List (Str × CacheEntry)) (k : Str) (v : CacheEntry) :
    (mapSet m k v).find? (fun p => p.1 = k) = some (k, v) := by
  unfold mapSet
  by_cases hany : m.any (fun p => p.1 = k) = true
  · rw [if_pos hany]
    induction m with
    | nil => simp at hany
    | cons p m' ih =>
        by_cases hp : p.1 = k
        · simp [List.find?, hp]
        · have hany' : m'.any (fun p => p.1 = k) = true := by
            simp only [List.any_cons] at hany
            simpa [hp] using hany
          simp only [List.map_cons, if_neg hp]
          rw [List.find?_cons_of_neg _ (by simpa using hp)]
          exact ih hany'
  · rw [if_neg hany]
    have hnone : m.find? (fun p => p.1 = k) = none := by
      rw [List.find?_eq_none]
      intro x hx
      simp only [decide_eq_true_eq]
      intro hxk
      exact hany (List.any_eq_true.mpr ⟨x, hx, by simp [hxk]⟩)
    rw [List.find?_append, hnone]
    simp

/-- **C7.** Writing a load record and reinitialising the store from the
persisted file reproduces the same mapping — in particular the same
`{name, baseDir}` pair for the written skill — and initialising from a
file that fails to parse as a valid mapping yields an empty store rather
than an error. -/
theorem cache_roundtrip (m : List (Str × CacheEntry)) (name baseDir : Str) (t : Nat) :
    initCache (some (stringifyCache
        (mapSet m name { name := name, baseDir := baseDir, loadedAt := t }))) =
      mapSet m name { name := name, baseDir := baseDir, loadedAt := t } ∧
    (mapSet m name { name := name, baseDir := baseDir, loadedAt := t }).find?
        (fun p => p.1 = name) =
      some (name, { name := name, baseDir := baseDir, loadedAt := t }) ∧
    (∀ txt, parseCache txt = none → initCache (some txt) = []) := by
  refine ⟨?_, find?_mapSet m name _, ?_⟩
  · show (parseCache (stringifyCache
      (mapSet m name { name := name, baseDir := baseDir, loadedAt := t }))).getD [] =
      mapSet m name { name := name, baseDir := baseDir, loadedAt := t }
    rw [parseCache_stringify]
    rfl
  · intro txt htxt
    show (parseCache txt).getD [] = []
    rw [htxt]
    rfl

/-- Witness for C7: a concrete record written to an empty store survives
the save/reload cycle, and a non-JSON file initialises to the empty store. -/
theorem cache_roundtrip_witness :
    initCache (some (stringifyCache
        (mapSet [] (strL "alpha")
          { name := strL "alpha", baseDir := strL "/home/u/.agent/skills/alpha",
            loadedAt := 42 }))) =
      mapSet [] (strL "alpha")
        { name := strL "alpha", baseDir := strL "/home/u/.agent/skills/alpha",
          loadedAt := 42 } ∧
    initCache (some (strL "not json")) = [] := by
  have h := cache_roundtrip [] (strL "alpha") (strL "/home/u/.agent/skills/alpha") 42
  exact ⟨h.1, h.2.2 (strL "not json") (by decide)⟩

end OpenSkills
